import Mathlib

/-!
# Verification of the adjacency-list tree engine

Shallow embedding of the tree engine found in `src/database/queries.js`
(class `TreeQueries`) and `src/services/treeService.js` (class `TreeService`).

Conventions of the embedding:

* A database row `(id, label, parent_id, created_at)` is modelled as `Node`;
  `created_at` is dropped because no algorithm reads it (spec §3).
* The SQLite table is modelled as a `List Node` (row order = physical order);
  the autoincrement counter lives in `Store.nextId`.
* SQL `ORDER BY id` is modelled by a stable insertion sort on the key, which
  agrees with any stable sort by that key.
* JavaScript `while` loops and recursions that walk `parent_id` pointers have
  no a-priori termination bound, so they are modelled with an explicit `fuel`
  argument where `none` means "the loop was still running after `fuel`
  iterations".  A result `some v` means the JS code returns `v`.
* JavaScript truthiness tests on numbers (`if (x)`, `while (x)`) are modelled
  by `x ≠ 0`; truthiness tests on possibly-null values by an `Option` match.
-/

/-- A row of the `nodes` table (`created_at` omitted, unused by the engine). -/
structure Node where
  id : Nat
  label : String
  parent_id : Option Nat
  deriving Repr, DecidableEq

/-- The database: physical row list plus the autoincrement counter. -/
structure Store where
  rows : List Node
  nextId : Nat
  deriving Repr, DecidableEq

/-- Nested output shape `{id, label, children}` built by `buildHierarchy`. -/
inductive TreeNode where
  | mk (id : Nat) (label : String) (children : List TreeNode)
  deriving Repr

/-- An entry `{id, label}` of the list returned by `getPathToNode`. -/
structure PathEntry where
  id : Nat
  label : String
  deriving Repr, DecidableEq

namespace TreeNode

def nid : TreeNode → Nat
  | mk i _ _ => i

def nlabel : TreeNode → String
  | mk _ l _ => l

def children : TreeNode → List TreeNode
  | mk _ _ cs => cs

end TreeNode

namespace TreeQueries

/-- Model of `getNodeById` — `SELECT ... WHERE id = ?` (`get` returns the first match,
`row || null`). -/
def getNodeById (rows : List Node) (i : Nat) : Option Node :=
  rows.find? (fun r => r.id == i)

/-- Model of `nodeExists` — `SELECT COUNT(*) ... WHERE id = ?` then `count > 0`. -/
def nodeExists (rows : List Node) (i : Nat) : Bool :=
  rows.any (fun r => r.id == i)

/-- Row order produced by `ORDER BY id` (stable sort on the id). -/
def sortRowsById (l : List Node) : List Node :=
  l.insertionSort (fun a b => a.id ≤ b.id)

/-- Model of `getChildrenByParentId` — `SELECT ... WHERE parent_id = ? ORDER BY id`. -/
def getChildrenByParentId (rows : List Node) (parentId : Nat) : List Node :=
  sortRowsById (rows.filter (fun r => r.parent_id == some parentId))

/-- Sort key used by `ORDER BY parent_id, id` (SQLite puts NULLs first). -/
def parentKey : Option Nat → Nat
  | none => 0
  | some p => p + 1

/-- Model of `getAllNodes` — `SELECT ... ORDER BY parent_id, id`. -/
def getAllNodes (rows : List Node) : List Node :=
  rows.insertionSort (fun a b =>
    parentKey a.parent_id < parentKey b.parent_id ∨
      (parentKey a.parent_id = parentKey b.parent_id ∧ a.id ≤ b.id))

/-- Model of `getRootNodes` — `SELECT ... WHERE parent_id IS NULL ORDER BY id`. -/
def getRootNodes (rows : List Node) : List Node :=
  sortRowsById (rows.filter (fun r => r.parent_id == none))

/-- Typed counterpart of the error strings thrown by `TreeQueries`. -/
inductive QueryErr where
  | parentNotFound (p : Nat)
  | sourceNotFound (s : Nat)
  deriving Repr, DecidableEq

/-- Model of `createNode(label, parentId)` — validates that the parent exists, then
`INSERT INTO nodes (label, parent_id) VALUES (?, ?)` and re-reads the row.
The pair is (result, store after the call); on an error the store is the
unchanged input store, because the check happens before the `INSERT`. -/
def createNode (s : Store) (label : String) (parentId : Option Nat) :
    Except QueryErr (Option Node) × Store :=
  match parentId with
  | some p =>
    if nodeExists s.rows p then
      let rows' := s.rows ++ [⟨s.nextId, label, parentId⟩]
      (.ok (getNodeById rows' s.nextId), ⟨rows', s.nextId + 1⟩)
    else
      (.error (.parentNotFound p), s)
  | none =>
    let rows' := s.rows ++ [⟨s.nextId, label, parentId⟩]
    (.ok (getNodeById rows' s.nextId), ⟨rows', s.nextId + 1⟩)

/-- Model of `getAllDescendants(nodeId)` — recursive pre-order expansion of
`getChildrenByParentId`: for each child, push the child and then its own
descendants.  `fuel` bounds the recursion depth (the JS version has none, so
`none` models non-termination of the JS recursion). -/
def getAllDescendants : Nat → List Node → Nat → Option (List Node)
  | 0, _, _ => none
  | fuel + 1, rows, nodeId =>
    (getChildrenByParentId rows nodeId).foldr
      (fun c acc => do
        let ds ← getAllDescendants fuel rows c.id
        let rest ← acc
        pure (c :: (ds ++ rest)))
      (some [])

/-- The `for (const child of children)` loop of `getAllDescendants` over an
explicit child list. -/
def descendantsOfChildren (fuel : Nat) (rows : List Node) (cs : List Node) :
    Option (List Node) :=
  cs.foldr
    (fun c acc => do
      let ds ← getAllDescendants fuel rows c.id
      let rest ← acc
      pure (c :: (ds ++ rest)))
    (some [])

/-- The `while (currentNode && currentNode.parent_id !== null)` loop of
`getAncestors`, starting at a current node; collects each found parent. -/
def ancestorsWalk : Nat → List Node → Node → Option (List Node)
  | fuel, rows, cur =>
    match cur.parent_id with
    | none => some []
    | some pid =>
      match getNodeById rows pid with
      | none => some []
      | some parent =>
        match fuel with
        | 0 => none
        | fuel + 1 => (ancestorsWalk fuel rows parent).map (fun l => parent :: l)

/-- Model of `getAncestors(nodeId)` — walk from the node's parent up to the root,
nearest parent first. -/
def getAncestors (fuel : Nat) (rows : List Node) (nodeId : Nat) : Option (List Node) :=
  match getNodeById rows nodeId with
  | none => some []
  | some cur => ancestorsWalk fuel rows cur

/-- The guarded `while (currentNodeId && depth < maxDepth)` loop of
`getAncestorIds`; `budget` is `maxDepth - depth`.  The JS truthiness test
`currentNodeId` is `≠ 0`. -/
def ancestorIdsLoop : List Node → Nat → Nat → List Nat
  | _, _, 0 => []
  | rows, curId, budget + 1 =>
    if curId = 0 then []
    else
      match getNodeById rows curId with
      | none => []
      | some node =>
        match node.parent_id with
        | none => []
        | some pid => pid :: ancestorIdsLoop rows pid budget

/-- Model of `getAncestorIds(nodeId)` — same walk, ids only, capped at `maxDepth = 1000`. -/
def getAncestorIds (rows : List Node) (nodeId : Nat) : List Nat :=
  ancestorIdsLoop rows nodeId 1000

/-- Model of `isAncestor(a, b)` — `a === b` or `a` among `getAncestorIds(b)`. -/
def isAncestor (rows : List Node) (potentialAncestorId nodeId : Nat) : Bool :=
  if potentialAncestorId = nodeId then true
  else (getAncestorIds rows nodeId).contains potentialAncestorId

/-- Model of `getNodeDepth(nodeId)` — `getAncestors(nodeId).length`. -/
def getNodeDepth (fuel : Nat) (rows : List Node) (nodeId : Nat) : Option Nat :=
  (getAncestors fuel rows nodeId).map List.length

end TreeQueries

namespace TreeService

open TreeQueries

/-! ## Hierarchy builder (`buildHierarchy` + `sortChildrenRecursively`)

`buildHierarchy` first fills an id-keyed `Map` of `TreeNode`s (`nodeMap.set`
overwrites, so for a duplicated id the map slot holds the *last* node with
that id), then pushes the map slot of every node whose `parent_id` equals
`rootParentId` onto `trees`, and appends the map slot of every other node
whose `parent_id` is a key of the map to that parent slot's `children`.
Because `trees` and all `children` arrays hold references into the map, the
produced structure is exactly: the slot of a root id, whose children are the
slots of the ids that attach to it, recursively.  The embedding materialises
that shared-reference graph as a tree; `fuel = nodes.length` bounds the
materialised depth, which is exact for every store whose reachable child
paths are simple (always the case for pairwise-distinct ids and acyclic
parent pointers, the situation of every claim about this function). -/

/-- The final content of the map slot for id `i`: the last input node with
that id (`Map.set` overwrites earlier ones). -/
def slotNode (nodes : List Node) (i : Nat) : Option Node :=
  nodes.reverse.find? (fun r => r.id == i)

/-- Label stored in the map slot of id `i`. -/
def slotLabel (nodes : List Node) (i : Nat) : String :=
  ((slotNode nodes i).map Node.label).getD ""

/-- Ids attached (in input order) to the map slot of id `i`: the nodes whose
`parent_id` is `some i` and is not `rootParentId` (those go to `trees`). -/
def attachIds (nodes : List Node) (rootParentId : Option Nat) (i : Nat) : List Nat :=
  (nodes.filter (fun c => c.parent_id == some i && c.parent_id != rootParentId)).map Node.id

/-- Materialisation of the map slot of id `i` down to depth `fuel`. -/
def slotTree (nodes : List Node) (rootParentId : Option Nat) : Nat → Nat → TreeNode
  | 0, i => .mk i (slotLabel nodes i) []
  | fuel + 1, i =>
    .mk i (slotLabel nodes i)
      ((attachIds nodes rootParentId i).map (slotTree nodes rootParentId fuel))

/-- The `trees` array right before the sorting post-pass: one entry (the map
slot of `node.id`) per input node whose `parent_id` equals `rootParentId`,
in input order. -/
def rawForest (nodes : List Node) (rootParentId : Option Nat) : List TreeNode :=
  (nodes.filter (fun n => n.parent_id == rootParentId)).map
    (fun n => slotTree nodes rootParentId nodes.length n.id)

/-- Stable `children.sort((a, b) => a.id - b.id)`. -/
def sortByNodeId (l : List TreeNode) : List TreeNode :=
  l.insertionSort (fun a b => a.nid ≤ b.nid)

/-- Model of `sortChildrenRecursively` acting on one tree: sort the `children` array
by id, then recurse into the (sorted) children. -/
def sortTree : TreeNode → TreeNode
  | .mk i l cs =>
    .mk i l ((sortByNodeId cs).attach.map (fun c => sortTree c.1))
termination_by t => sizeOf t
decreasing_by
  rename_i i l cs
  have hmem : c.1 ∈ cs := by
    have h2 := c.2
    simp only [sortByNodeId] at h2
    exact (List.Perm.mem_iff (List.perm_insertionSort _ cs)).mp h2
  have := List.sizeOf_lt_of_mem hmem
  simp only [TreeNode.mk.sizeOf_spec]
  omega

/-- Model of `sortChildrenRecursively(trees)`: sorts inside each tree of the list but
never reorders the list itself. -/
def sortChildrenRecursively (trees : List TreeNode) : List TreeNode :=
  trees.map sortTree

/-- Model of `buildHierarchy(nodes, rootParentId = null)`. -/
def buildHierarchy (nodes : List Node) (rootParentId : Option Nat := none) : List TreeNode :=
  sortChildrenRecursively (rawForest nodes rootParentId)

/-- Model of `countNodesInTree(tree)` — `1 +` the recursive count of the children. -/
def countNodesInTree : TreeNode → Nat
  | .mk _ _ cs => 1 + (cs.attach.map (fun c => countNodesInTree c.1)).sum
termination_by t => sizeOf t
decreasing_by
  rename_i i l cs
  have := List.sizeOf_lt_of_mem c.2
  simp only [TreeNode.mk.sizeOf_spec]
  omega

/-- Total node count of a forest (summed `countNodesInTree`). -/
def totalCount (trees : List TreeNode) : Nat :=
  (trees.map countNodesInTree).sum

end TreeService

namespace TreeService

open TreeQueries

/-- Typed counterpart of the input-validation errors of `validateNodeInput`. -/
inductive CreateErr where
  | invalidLabel
  | invalidParentId
  | parentNotFound (p : Nat)
  | internalError
  deriving Repr, DecidableEq

/-- The JS `label.trim()` modelled on the character list (whitespace stripped from
both ends), so that it evaluates inside the kernel. -/
def trimmedChars (label : String) : List Char :=
  ((label.toList.dropWhile Char.isWhitespace).reverse.dropWhile Char.isWhitespace).reverse

/-- Model of `validateNodeInput(label, parentId)` — label non-empty (`!label` catches
the empty string), not blank after `trim`, at most 255 characters; a non-null
parent id must be a positive integer. -/
def validateNodeInput (label : String) (parentId : Option Nat) : Except CreateErr Unit :=
  if label == "" then .error .invalidLabel
  else if (trimmedChars label).length == 0 then .error .invalidLabel
  else if label.length > 255 then .error .invalidLabel
  else
    match parentId with
    | some p => if 0 < p then .ok () else .error .invalidParentId
    | none => .ok ()

/-- Model of `TreeService.createNode` — validate the input, insert through
`TreeQueries.createNode`, and return `{id, label, children: []}`. -/
def createNode (s : Store) (label : String) (parentId : Option Nat) :
    Except CreateErr TreeNode × Store :=
  match validateNodeInput label parentId with
  | .error e => (.error e, s)
  | .ok _ =>
    match TreeQueries.createNode s label parentId with
    | (.ok (some n), s') => (.ok (.mk n.id n.label []), s')
    | (.ok none, s') => (.error .internalError, s')
    | (.error (.parentNotFound p), s') => (.error (.parentNotFound p), s')
    | (.error _, s') => (.error .internalError, s')

/-- The `while (currentNode)` loop of `getPathToNode`: unshift `{id, label}`,
then follow `parent_id` while it is truthy (`0` is falsy in JS) and the
parent row is found. -/
def pathWalk : Nat → List Node → Node → Option (List PathEntry)
  | fuel, rows, cur =>
    match cur.parent_id with
    | none => some [⟨cur.id, cur.label⟩]
    | some pid =>
      if pid = 0 then some [⟨cur.id, cur.label⟩]
      else
        match getNodeById rows pid with
        | none => some [⟨cur.id, cur.label⟩]
        | some parent =>
          match fuel with
          | 0 => none
          | fuel + 1 => (pathWalk fuel rows parent).map (fun l => l ++ [⟨cur.id, cur.label⟩])

/-- Model of `getPathToNode(nodeId)` — root-first path including the node itself;
empty list when the node does not exist. -/
def getPathToNode (fuel : Nat) (rows : List Node) (nodeId : Nat) : Option (List PathEntry) :=
  match getNodeById rows nodeId with
  | none => some []
  | some cur => pathWalk fuel rows cur

/-- Model of `getTreeByRootId(rootId)` — fetch the node, its descendants, rebuild via
`buildHierarchy` (with the default `rootParentId = null`), and return
`trees.length > 0 ? trees[0] : null`. -/
def getTreeByRootId (fuel : Nat) (rows : List Node) (rootId : Nat) :
    Option (Option TreeNode) :=
  match getNodeById rows rootId with
  | none => some none
  | some rootNode =>
    (getAllDescendants fuel rows rootId).map (fun descendants =>
      (buildHierarchy (rootNode :: descendants) none).head?)

/-- Issue kinds reported by `validateTreeStructure` (`traversal_error` is
only emitted on a Node Store failure, which the embedding does not model). -/
inductive IssueType where
  | orphaned_node
  | circular_reference
  | traversal_error
  deriving Repr, DecidableEq

/-- An entry of the `issues` array (`type` + offending node). -/
structure Issue where
  type : IssueType
  nodeId : Nat
  deriving Repr, DecidableEq

/-- Result shape of `validateTreeStructure`. -/
structure ValidationResult where
  isValid : Bool
  issues : List Issue
  totalNodes : Nat
  rootNodes : Nat
  deriving Repr, DecidableEq

/-- Issues pushed for one node of the scanned set: the orphan check against
the id map of `nodes`, then the circular check via `getAncestorIds`, which
queries the full store `storeRows`. -/
def issuesForNode (storeRows nodes : List Node) (node : Node) : List Issue :=
  (match node.parent_id with
   | some p => if nodes.any (fun r => r.id == p) then [] else [⟨.orphaned_node, node.id⟩]
   | none => []) ++
  (match node.parent_id with
   | some _ =>
     if (getAncestorIds storeRows node.id).contains node.id then
       [⟨.circular_reference, node.id⟩]
     else []
   | none => [])

/-- Model of `validateTreeStructure(nodes)` with an explicit node set. -/
def validateTreeStructure (storeRows nodes : List Node) : ValidationResult :=
  let issues := (nodes.map (issuesForNode storeRows nodes)).flatten
  ⟨issues.isEmpty, issues, nodes.length,
    (nodes.filter (fun n => n.parent_id == none)).length⟩

/-- Model of `validateTreeStructure()` with the default argument: the node set is
`getAllNodes()`. -/
def validateTreeStructureAll (rows : List Node) : ValidationResult :=
  validateTreeStructure rows (getAllNodes rows)

end TreeService

/-- The distinct relocation failure conditions.  `nullParentAccess` models
the JavaScript `TypeError` thrown by `sourceNode.parent_id` when
`sourceNode` is `null` (service line 454). -/
inductive MoveErr where
  | sourceNotFound
  | selfMove
  | descendantMove
  | noopMove
  | nullParentAccess
  deriving Repr, DecidableEq

namespace TreeQueries

/-- Model of `parentIdMap.get(k)` — JS `Map` lookup (keys are numbers). -/
def mapGet (m : List (Nat × Option Nat)) (k : Nat) : Option (Option Nat) :=
  (m.find? (fun e => e.1 == k)).map (fun e => e.2)

/-- Model of `parentIdMap.set(k, v)` — JS `Map` insert-or-overwrite. -/
def mapSet (m : List (Nat × Option Nat)) (k : Nat) (v : Option Nat) :
    List (Nat × Option Nat) :=
  if m.any (fun e => e.1 == k) then
    m.map (fun e => if e.1 == k then (k, v) else e)
  else m ++ [(k, v)]

/-- The `for (const descendant of descendants)` loop that fills
`parentIdMap`: when the map already has the descendant's old parent id,
map the descendant to that entry's value. -/
def buildParentIdMap (descendants : List Node) (m0 : List (Nat × Option Nat)) :
    List (Nat × Option Nat) :=
  descendants.foldl
    (fun m d =>
      match d.parent_id with
      | some oldParentId =>
        match mapGet m oldParentId with
        | some v => mapSet m d.id v
        | none => m
      | none => m)
    m0

/-- Model of `UPDATE nodes SET parent_id = ? WHERE id = ?`. -/
def applyParentUpdate (rows : List Node) (nid : Nat) (pid : Option Nat) : List Node :=
  rows.map (fun r => if r.id == nid then { r with parent_id := pid } else r)

/-- Model of `TreeQueries.moveNodeAndSubtree(sourceNodeId, newParentId)` — inside one
transaction: re-read the source (typed not-found failure, nothing changed),
collect the descendants, build `parentIdMap` seeded with
`(sourceNodeId ↦ newParentId)`, update the source's `parent_id`, then update
every descendant that has a `parentIdMap` entry, and finally re-read the
source node.  The outer `Option` is the descendant-walk fuel. -/
def moveNodeAndSubtree (fuel : Nat) (rows : List Node) (sourceNodeId : Nat)
    (newParentId : Option Nat) : Option (Except MoveErr (List Node × Option Node)) :=
  match getNodeById rows sourceNodeId with
  | none => some (.error .sourceNotFound)
  | some _ =>
    (getAllDescendants fuel rows sourceNodeId).map (fun descendants =>
      let parentIdMap := buildParentIdMap descendants [(sourceNodeId, newParentId)]
      let rows1 := applyParentUpdate rows sourceNodeId newParentId
      let rows2 := descendants.foldl
        (fun rs d =>
          match mapGet parentIdMap d.id with
          | some newPid => applyParentUpdate rs d.id newPid
          | none => rs)
        rows1
      .ok (rows2, getNodeById rows2 sourceNodeId))

end TreeQueries

namespace TreeService

open TreeQueries

/-- Tail of `TreeService.moveNodeAndSubtree` after the self-move and
descendant-move checks: the no-op check reads `sourceNode.parent_id`, which
throws on a `null` source node; otherwise delegate to
`TreeQueries.moveNodeAndSubtree`. -/
def moveTail (fuel : Nat) (rows : List Node) (sourceNodeId : Nat)
    (newParentId : Option Nat) : Option (Except MoveErr (List Node × Option Node)) :=
  match getNodeById rows sourceNodeId with
  | none => some (.error .nullParentAccess)
  | some sourceNode =>
    if sourceNode.parent_id == newParentId then some (.error .noopMove)
    else TreeQueries.moveNodeAndSubtree fuel rows sourceNodeId newParentId

/-- Model of `TreeService.moveNodeAndSubtree(sourceNodeId, newParentId)` — in source
order: the self-move check (`sourceNodeId === newParentId`), then, for a
non-null `newParentId`, the descendant-move check over the descendant set,
then the no-op check, then the write through `TreeQueries`. -/
def moveNodeAndSubtree (fuel : Nat) (rows : List Node) (sourceNodeId : Nat)
    (newParentId : Option Nat) : Option (Except MoveErr (List Node × Option Node)) :=
  if some sourceNodeId == newParentId then some (.error .selfMove)
  else
    match newParentId with
    | some npid =>
      (getAllDescendants fuel rows sourceNodeId).bind (fun descendants =>
        if (descendants.map Node.id).contains npid then some (.error .descendantMove)
        else moveTail fuel rows sourceNodeId newParentId)
    | none => moveTail fuel rows sourceNodeId newParentId

end TreeService

open TreeQueries TreeService

/-! ## Auxiliary definitions used by the verification -/

/-- The store after the three creations `root → child → grandchild`,
performed through `createNode` starting from the empty store. -/
def chainStore : Store :=
  (TreeQueries.createNode
    ((TreeQueries.createNode
      ((TreeQueries.createNode ⟨[], 1⟩ "root" none).2) "child" (some 1)).2)
    "grandchild" (some 2)).2

/-- A corrupted store containing a two-node `parent_id` cycle. -/
def cycRows : List Node := [⟨1, "a", some 2⟩, ⟨2, "b", some 1⟩]

/-- Stores reachable from the empty store through `createNode` calls only.
A failed call returns the store unchanged, so it is allowed as well. -/
inductive ReachableStore : Store → Prop where
  | empty : ReachableStore ⟨[], 1⟩
  | create (s : Store) (label : String) (parentId : Option Nat)
      (h : ReachableStore s) :
      ReachableStore (TreeQueries.createNode s label parentId).2

/-- Invariant maintained by `createNode`: positive ids below `nextId`,
pairwise-distinct ids, and every parent pointer references an existing row
with a strictly smaller id. -/
def StoreInv (s : Store) : Prop :=
  0 < s.nextId ∧
  (∀ r ∈ s.rows, 0 < r.id ∧ r.id < s.nextId) ∧
  (s.rows.map Node.id).Nodup ∧
  (∀ r ∈ s.rows, ∀ p, r.parent_id = some p → p < r.id ∧ nodeExists s.rows p = true)

instance : IsTotal TreeNode (fun a b => a.nid ≤ b.nid) :=
  ⟨fun a b => Nat.le_total a.nid b.nid⟩

instance : IsTrans TreeNode (fun a b => a.nid ≤ b.nid) :=
  ⟨fun _ _ _ h1 h2 => Nat.le_trans h1 h2⟩

instance : IsAntisymm TreeNode (fun a b => a.nid < b.nid) :=
  ⟨fun _ _ h1 h2 => ((Nat.lt_asymm h1) h2).elim⟩

/-- One `parent_id` step on ids, through the store. -/
def stepParent (rows : List Node) (i : Nat) : Option Nat :=
  match getNodeById rows i with
  | none => none
  | some r => r.parent_id

/-- The id reached after `k` parent steps (`none` when the chain leaves the
store or reaches a root earlier). -/
def chainIdAt (rows : List Node) : Nat → Nat → Option Nat
  | i, 0 => some i
  | i, k + 1 =>
    match stepParent rows i with
    | none => none
    | some p => chainIdAt rows p k

/-- Boolean test: some prefix of the parent chain of `i`, of length at most
`K`, ends in a member of `front`. -/
def hitsWithin (rows : List Node) (front : List Nat) (K i : Nat) : Bool :=
  (List.range (K + 1)).any (fun k =>
    match chainIdAt rows i k with
    | some j => front.contains j
    | none => false)

/-- Ids of the root rows, in row order. -/
def rootIds (nodes : List Node) : List Nat :=
  (nodes.filter (fun n => n.parent_id == none)).map Node.id

/-- Separated frontier: no parent chain from a frontier id returns to the
frontier after one or more steps. -/
def FrontSep (rows : List Node) (front : List Nat) : Prop :=
  ∀ j ∈ front, ∀ k, 1 ≤ k → ∀ j', chainIdAt rows j k = some j' → j' ∉ front

/-- Pre-order bookkeeping: every listed node's parent is among `seen` (the
move source plus the ids already listed before it). -/
def parentsSeen : List Nat → List Node → Bool
  | _, [] => true
  | seen, d :: rest =>
    match d.parent_id with
    | some p => seen.contains p && parentsSeen (seen ++ [d.id]) rest
    | none => false

/-- Combined effect of the move's `UPDATE` statements: every row whose id is
listed gets `parent_id := np`. -/
def setParents (ids : List Nat) (np : Option Nat) (rows : List Node) : List Node :=
  rows.map (fun r => if ids.contains r.id then { r with parent_id := np } else r)

/-- The four-node store of spec §8 scenario 1: root(1) with children
bear(2) and frog(4); bear has child cat(3). -/
def demoRows : List Node :=
  [⟨1, "root", none⟩, ⟨2, "bear", some 1⟩, ⟨3, "cat", some 2⟩, ⟨4, "frog", some 1⟩]

/-- Row state actually produced by `moveNodeAndSubtree(2, 4)` on `demoRows`:
bear *and cat* are both reparented to frog. -/
def demoMoved : List Node :=
  [⟨1, "root", none⟩, ⟨2, "bear", some 4⟩, ⟨3, "cat", some 4⟩, ⟨4, "frog", some 1⟩]


/-! ## General helper lemmas -/

theorem getAllDescendants_zero (rows : List Node) (nodeId : Nat) :
    getAllDescendants 0 rows nodeId = none := rfl

theorem getAllDescendants_succ (fuel : Nat) (rows : List Node) (nodeId : Nat) :
    getAllDescendants (fuel + 1) rows nodeId =
      descendantsOfChildren fuel rows (getChildrenByParentId rows nodeId) := rfl

theorem descendantsOfChildren_nil (fuel : Nat) (rows : List Node) :
    descendantsOfChildren fuel rows [] = some [] := rfl

theorem descendantsOfChildren_cons (fuel : Nat) (rows : List Node) (c : Node)
    (cs : List Node) :
    descendantsOfChildren fuel rows (c :: cs) = (do
      let ds ← getAllDescendants fuel rows c.id
      let rest ← descendantsOfChildren fuel rows cs
      pure (c :: (ds ++ rest))) := rfl

theorem getNodeById_eq_none_of_not_exists {rows : List Node} {i : Nat}
    (h : nodeExists rows i = false) : getNodeById rows i = none := by
  rw [getNodeById, List.find?_eq_none]
  intro r hr
  simp only [nodeExists, List.any_eq_false] at h
  exact fun hc => (h r hr) hc

theorem nodeExists_false_iff {rows : List Node} {i : Nat} :
    nodeExists rows i = false ↔ ∀ r ∈ rows, r.id ≠ i := by
  simp [nodeExists, List.any_eq_false]

/-- A `find?` hit: the returned row is a member and has the requested id. -/
theorem getNodeById_mem_and_id {rows : List Node} {i : Nat} {r : Node}
    (h : getNodeById rows i = some r) : r ∈ rows ∧ r.id = i := by
  have hm := List.mem_of_find?_eq_some h
  have hp := List.find?_some h
  simp only [beq_iff_eq] at hp
  exact ⟨hm, hp⟩

/-! ## Claim C9 — ancestors and path of a created chain -/


/-- C9: after creating the chain root→child→grandchild,
`getAncestors(grandchild)` is exactly `[child, root]` (nearest parent first,
excluding the node itself) and `getPathToNode(grandchild)` is exactly
`[root, child, grandchild]` (root first, including the node itself). -/
theorem c9_chain_roundtrip :
    getAncestors chainStore.rows.length chainStore.rows 3 =
      some [⟨2, "child", some 1⟩, ⟨1, "root", none⟩] ∧
    getPathToNode chainStore.rows.length chainStore.rows 3 =
      some [⟨1, "root"⟩, ⟨2, "child"⟩, ⟨3, "grandchild"⟩] := by
  constructor <;> rfl

/-! ## Claim C6 — create with a missing parent fails before writing -/

/-- C6: a `create` call with a well-formed label and a non-null parent id
that does not reference an existing node fails with the referential
(parent-does-not-exist) error and writes nothing: the store is returned
unchanged, so its row count is unchanged. -/
theorem c6_create_missing_parent (s : Store) (label : String) (p : Nat)
    (hlabel : validateNodeInput label (some p) = .ok ())
    (hp : nodeExists s.rows p = false) :
    TreeService.createNode s label (some p) = (.error (.parentNotFound p), s) ∧
    (TreeService.createNode s label (some p)).2.rows.length = s.rows.length := by
  have hq : TreeQueries.createNode s label (some p) = (.error (.parentNotFound p), s) := by
    simp [TreeQueries.createNode, hp]
  constructor
  · simp [TreeService.createNode, hlabel, hq]
  · simp [TreeService.createNode, hlabel, hq]

/-- C6 witness: the concrete scenario of spec §8.3 — `parentId: 999` on the
empty store. -/
theorem c6_witness :
    validateNodeInput "test" (some 999) = .ok () ∧
    nodeExists (Store.mk [] 1).rows 999 = false ∧
    TreeService.createNode ⟨[], 1⟩ "test" (some 999) =
      (.error (.parentNotFound 999), ⟨[], 1⟩) :=
  ⟨rfl, rfl, (c6_create_missing_parent ⟨[], 1⟩ "test" 999 rfl rfl).1⟩

/-! ## Claim C2 — order of the relocation precondition checks -/

/-- C2 counterexample: on the empty store (so `sourceId = 5` references no
node) with `newParentId = 5`, the call fails with the *self-move* condition,
not the source-not-found condition — the source-existence check is not
performed first. -/
theorem c2_counterexample :
    nodeExists ([] : List Node) 5 = false ∧
    TreeService.moveNodeAndSubtree 1 ([] : List Node) 5 (some 5) =
      some (.error .selfMove) := by
  constructor <;> rfl

/-- C2 amended: `TreeService.moveNodeAndSubtree` checks the self-move
condition first; a call whose `sourceId` references no existing node never
fails with the source-not-found condition — it fails with self-move when
`sourceId = newParentId`, and otherwise with the descendant-move condition
or the null-access failure of the no-op check. -/
theorem c2_amended_order (fuel : Nat) (rows : List Node) (src : Nat)
    (np : Option Nat) (r : Except MoveErr (List Node × Option Node))
    (hsrc : nodeExists rows src = false)
    (hres : TreeService.moveNodeAndSubtree fuel rows src np = some r) :
    (∃ e, r = .error e ∧ e ≠ MoveErr.sourceNotFound) ∧
    (np = some src → r = .error .selfMove) := by
  have hnone : getNodeById rows src = none := getNodeById_eq_none_of_not_exists hsrc
  have htail : ∀ x, moveTail fuel rows src np = some x → x = .error .nullParentAccess := by
    intro x hx
    rw [moveTail, hnone] at hx
    exact (Option.some.inj hx).symm
  simp only [TreeService.moveNodeAndSubtree] at hres
  by_cases hself : (some src == np) = true
  · rw [if_pos hself] at hres
    have hr : r = .error .selfMove := by
      cases hres; rfl
    exact ⟨⟨.selfMove, hr, by simp⟩, fun _ => hr⟩
  · rw [if_neg hself] at hres
    have hnp : np ≠ some src := by
      intro h
      exact hself (by simp [h])
    refine ⟨?_, fun h => absurd h hnp⟩
    cases np with
    | some npid =>
      dsimp only at hres
      rcases Option.bind_eq_some.mp hres with ⟨ds, hds, hbr⟩
      by_cases hcon : ((ds.map Node.id).contains npid) = true
      · rw [if_pos hcon] at hbr
        exact ⟨.descendantMove, by cases hbr; exact ⟨rfl, by simp⟩⟩
      · rw [if_neg hcon] at hbr
        exact ⟨.nullParentAccess, htail r hbr ▸ ⟨rfl, by simp⟩⟩
    | none =>
      dsimp only at hres
      exact ⟨.nullParentAccess, htail r hres ▸ ⟨rfl, by simp⟩⟩

/-- C2 witness: the amended statement discharged on the concrete
counterexample input. -/
theorem c2_witness :
    nodeExists ([] : List Node) 5 = false ∧
    ((∃ e, (Except.error MoveErr.selfMove :
        Except MoveErr (List Node × Option Node)) = .error e ∧
      e ≠ MoveErr.sourceNotFound) ∧
     (some 5 = some 5 → (Except.error MoveErr.selfMove :
        Except MoveErr (List Node × Option Node)) = .error .selfMove)) :=
  ⟨rfl, c2_amended_order 1 [] 5 (some 5) (.error .selfMove) rfl rfl⟩

/-! ## Claim C3 — termination of the traversal walks -/


/-- On the cyclic store the `getAncestors` while-loop never exits,
whatever iteration bound it is given. -/
theorem ancestorsWalk_cyc_none :
    ∀ fuel, ancestorsWalk fuel cycRows ⟨1, "a", some 2⟩ = none ∧
      ancestorsWalk fuel cycRows ⟨2, "b", some 1⟩ = none := by
  intro fuel
  induction fuel with
  | zero => exact ⟨rfl, rfl⟩
  | succ n ih =>
    constructor
    · show (ancestorsWalk n cycRows ⟨2, "b", some 1⟩).map _ = none
      rw [ih.2]
      rfl
    · show (ancestorsWalk n cycRows ⟨1, "a", some 2⟩).map _ = none
      rw [ih.1]
      rfl

/-- On the cyclic store the `getAllDescendants` recursion never finishes,
whatever recursion depth it is given. -/
theorem getAllDescendants_cyc_none :
    ∀ fuel, getAllDescendants fuel cycRows 1 = none ∧
      getAllDescendants fuel cycRows 2 = none := by
  intro fuel
  induction fuel with
  | zero => exact ⟨rfl, rfl⟩
  | succ n ih =>
    constructor
    · rw [getAllDescendants_succ,
        show getChildrenByParentId cycRows 1 = [⟨2, "b", some 1⟩] from by decide,
        descendantsOfChildren_cons, ih.2]
      rfl
    · rw [getAllDescendants_succ,
        show getChildrenByParentId cycRows 2 = [⟨1, "a", some 2⟩] from by decide,
        descendantsOfChildren_cons, ih.1]
      rfl

/-- The `getAncestorIds` while-loop runs at most `budget` iterations. -/
theorem ancestorIdsLoop_length_le :
    ∀ budget rows curId, (ancestorIdsLoop rows curId budget).length ≤ budget := by
  intro budget
  induction budget with
  | zero => intro rows curId; simp [ancestorIdsLoop]
  | succ n ih =>
    intro rows curId
    rw [ancestorIdsLoop]
    by_cases h0 : curId = 0
    · simp [h0]
    · rw [if_neg h0]
      cases hfind : getNodeById rows curId with
      | none => simp
      | some node =>
        cases hp : node.parent_id with
        | none => simp [hp]
        | some pid =>
          dsimp only
          rw [hp]
          simpa using Nat.succ_le_succ (ih rows pid)

/-- C3 counterexample: on a store holding a two-node `parent_id` cycle, the
ancestor walk and the descendant walk are still running after 2000
iterations — twice the documented `maxDepth = 1000` guard — so they are not
bounded by the maximum-depth guard and do not terminate. -/
theorem c3_counterexample :
    getAncestors 2000 cycRows 1 = none ∧
    getAllDescendants 2000 cycRows 1 = none := by
  constructor
  · show ancestorsWalk 2000 cycRows ⟨1, "a", some 2⟩ = none
    exact (ancestorsWalk_cyc_none 2000).1
  · exact (getAllDescendants_cyc_none 2000).1

/-- C3 amended: only the ancestor-id walk is protected by the
`maxDepth = 1000` guard and always stops within that bound; the ancestor
walk (`getAncestors`) and the descendant walk (`getAllDescendants`) have no
guard and never finish on a store with a `parent_id` cycle, whatever
iteration or recursion bound they are granted. -/
theorem c3_amended_termination :
    (∀ rows nodeId, (getAncestorIds rows nodeId).length ≤ 1000) ∧
    (∀ fuel, getAncestors fuel cycRows 1 = none) ∧
    (∀ fuel, getAllDescendants fuel cycRows 1 = none) := by
  refine ⟨fun rows nodeId => ancestorIdsLoop_length_le 1000 rows nodeId, fun fuel => ?_, fun fuel => (getAllDescendants_cyc_none fuel).1⟩
  show ancestorsWalk fuel cycRows ⟨1, "a", some 2⟩ = none
  exact (ancestorsWalk_cyc_none fuel).1

/-! ## Claim C8 — `getNodeDepth(n) = len(getPathToNode(n)) - 1` -/

/-- In a store whose rows all have non-zero ids (ids are positive, spec §3),
the path walk and the ancestor walk agree step by step: whenever one
finishes, so does the other, and the path is one entry longer (the node
itself). -/
theorem pathWalk_length_eq (rows : List Node) (h0 : ∀ r ∈ rows, r.id ≠ 0) :
    ∀ fuel cur, (pathWalk fuel rows cur).map List.length =
      (ancestorsWalk fuel rows cur).map (fun l => l.length + 1) := by
  have hz : getNodeById rows 0 = none := by
    rw [getNodeById, List.find?_eq_none]
    intro r hr
    simpa using h0 r hr
  intro fuel
  induction fuel with
  | zero =>
    intro cur
    rw [pathWalk, ancestorsWalk]
    cases hp : cur.parent_id with
    | none => rfl
    | some pid =>
      dsimp only
      by_cases hpid : pid = 0
      · subst hpid
        rw [if_pos rfl, hz]
        rfl
      · rw [if_neg hpid]
        cases hfind : getNodeById rows pid with
        | none => rfl
        | some parent => rfl
  | succ n ih =>
    intro cur
    rw [pathWalk, ancestorsWalk]
    cases hp : cur.parent_id with
    | none => rfl
    | some pid =>
      dsimp only
      by_cases hpid : pid = 0
      · subst hpid
        rw [if_pos rfl, hz]
        rfl
      · rw [if_neg hpid]
        cases hfind : getNodeById rows pid with
        | none => rfl
        | some parent =>
          dsimp only
          cases hanc : ancestorsWalk n rows parent with
          | none =>
            have hpw : pathWalk n rows parent = none := by
              have := ih parent
              rw [hanc] at this
              simpa using this
            rw [hpw]
            rfl
          | some al =>
            have := ih parent
            rw [hanc] at this
            cases hpw : pathWalk n rows parent with
            | none => rw [hpw] at this; simp at this
            | some pl =>
              rw [hpw] at this
              simp only [Option.map_some'] at this ⊢
              simp [Option.some.inj this]

/-- C8: for every node present in a store with positive ids whose ancestor
walk terminates (acyclic parent pointers), `getNodeDepth` equals the length
of `getPathToNode` minus one; the path always contains at least the node
itself, so a root has depth 0 and a path of length 1. -/
theorem c8_depth_eq_path_length (rows : List Node) (nodeId : Nat) (n : Node)
    (h0 : ∀ r ∈ rows, r.id ≠ 0)
    (hn : getNodeById rows nodeId = some n)
    (hconv : (getAncestors rows.length rows nodeId).isSome = true) :
    ∃ d l, getNodeDepth rows.length rows nodeId = some d ∧
      getPathToNode rows.length rows nodeId = some l ∧
      d = l.length - 1 ∧ d + 1 = l.length := by
  simp only [getAncestors, hn] at hconv
  rcases Option.isSome_iff_exists.mp hconv with ⟨al, hal⟩
  have hlen := pathWalk_length_eq rows h0 rows.length n
  rw [hal] at hlen
  cases hpw : pathWalk rows.length rows n with
  | none => rw [hpw] at hlen; simp at hlen
  | some pl =>
    rw [hpw] at hlen
    simp only [Option.map_some'] at hlen
    have hpl : pl.length = al.length + 1 := Option.some.inj hlen
    refine ⟨al.length, pl, ?_, ?_, ?_, ?_⟩
    · simp only [getNodeDepth, getAncestors, hn, hal]
      rfl
    · simp only [getPathToNode, hn, hpw]
    · omega
    · omega

/-- C8 witness: a concrete two-node store (root and child). -/
theorem c8_witness :
    (∀ r ∈ [(⟨1, "r", none⟩ : Node), ⟨2, "c", some 1⟩], r.id ≠ 0) ∧
    (∃ d l,
      getNodeDepth 2 [(⟨1, "r", none⟩ : Node), ⟨2, "c", some 1⟩] 2 = some d ∧
      getPathToNode 2 [(⟨1, "r", none⟩ : Node), ⟨2, "c", some 1⟩] 2 = some l ∧
      d = l.length - 1 ∧ d + 1 = l.length) :=
  ⟨by decide,
    c8_depth_eq_path_length [⟨1, "r", none⟩, ⟨2, "c", some 1⟩] 2 ⟨2, "c", some 1⟩
      (by decide) rfl rfl⟩

/-! ## Claim C10 — `getTreeByRootId` on a non-root node -/

/-- Rows returned by `getChildrenByParentId` carry that parent id. -/
theorem mem_getChildrenByParentId {rows : List Node} {pid : Nat} {c : Node}
    (h : c ∈ getChildrenByParentId rows pid) : c.parent_id = some pid := by
  rw [getChildrenByParentId, sortRowsById] at h
  have hmem : c ∈ rows.filter (fun r => r.parent_id == some pid) :=
    (List.Perm.mem_iff (List.perm_insertionSort _ _)).mp h
  have := List.of_mem_filter hmem
  simpa using this

/-- Every row in a (finished) `getAllDescendants` result has a non-null
`parent_id`: each one entered the list as somebody's child. -/
theorem getAllDescendants_parent_some :
    ∀ fuel, (∀ rows cs ds, (∀ c ∈ cs, ∃ p, c.parent_id = some p) →
        descendantsOfChildren fuel rows cs = some ds →
        ∀ d ∈ ds, ∃ p, d.parent_id = some p) ∧
      (∀ rows nodeId ds, getAllDescendants fuel rows nodeId = some ds →
        ∀ d ∈ ds, ∃ p, d.parent_id = some p) := by
  intro fuel
  induction fuel with
  | zero =>
    constructor
    · intro rows cs ds hcs hds
      cases cs with
      | nil =>
        rw [descendantsOfChildren_nil] at hds
        cases hds
        simp
      | cons c cs' =>
        rw [descendantsOfChildren_cons, getAllDescendants_zero] at hds
        simp at hds
    · intro rows nodeId ds hds
      rw [getAllDescendants_zero] at hds
      simp at hds
  | succ n ih =>
    have hq : ∀ rows nodeId ds, getAllDescendants (n + 1) rows nodeId = some ds →
        ∀ d ∈ ds, ∃ p, d.parent_id = some p := by
      intro rows nodeId ds hds
      rw [getAllDescendants_succ] at hds
      exact ih.1 rows (getChildrenByParentId rows nodeId) ds
        (fun c hc => ⟨nodeId, mem_getChildrenByParentId hc⟩) hds
    refine ⟨?_, hq⟩
    intro rows cs
    induction cs with
    | nil =>
      intro ds hcs hds
      rw [descendantsOfChildren_nil] at hds
      cases hds
      simp
    | cons c cs' ihc =>
      intro ds hcs hds
      rw [descendantsOfChildren_cons] at hds
      rcases Option.bind_eq_some.mp hds with ⟨d1, hd1, hrest⟩
      rcases Option.bind_eq_some.mp hrest with ⟨rest, hrest2, hpure⟩
      cases hpure
      intro d hd
      rcases List.mem_cons.mp hd with hdc | hdm
      · exact hdc ▸ hcs c (by simp)
      · rcases List.mem_append.mp hdm with hd1m | hrm
        · exact hq rows c.id d1 hd1 d hd1m
        · exact ihc rest (fun x hx => hcs x (List.mem_cons_of_mem c hx)) hrest2 d hrm

/-- A forest built over nodes that all have non-null parents is empty. -/
theorem buildHierarchy_eq_nil_of_no_root {nodes : List Node}
    (h : ∀ x ∈ nodes, x.parent_id ≠ none) :
    buildHierarchy nodes none = [] := by
  have hfil : nodes.filter (fun n => n.parent_id == none) = [] := by
    rw [List.filter_eq_nil_iff]
    intro a ha
    simpa using h a ha
  rw [buildHierarchy, rawForest, hfil]
  rfl

/-- C10: in a store where the descendant walk finishes (acyclic data), a
call `getTreeByRootId(id)` on an existing node whose `parent_id` is non-null
returns `null` — the node itself is dropped by `buildHierarchy` because its
parent is outside the fetched node set, so the tree list is empty. -/
theorem c10_nonroot_gives_null (rows : List Node) (nid : Nat) (n : Node) (p : Nat)
    (ds : List Node)
    (hn : getNodeById rows nid = some n)
    (hp : n.parent_id = some p)
    (hds : getAllDescendants rows.length rows nid = some ds) :
    getTreeByRootId rows.length rows nid = some none := by
  simp only [getTreeByRootId, hn, hds, Option.map_some']
  have hall : ∀ x ∈ n :: ds, x.parent_id ≠ none := by
    intro x hx
    rcases List.mem_cons.mp hx with hxe | hxm
    · rw [hxe, hp]; simp
    · rcases (getAllDescendants_parent_some rows.length).2 rows nid ds hds x hxm with ⟨q, hq⟩
      rw [hq]; simp
  rw [buildHierarchy_eq_nil_of_no_root hall]
  rfl

/-- C10 witness: node `bear` (id 2, parent 1) of the four-node demo store. -/
theorem c10_witness :
    getNodeById [⟨1, "root", none⟩, ⟨2, "bear", some 1⟩, ⟨3, "cat", some 2⟩,
      ⟨4, "frog", some 1⟩] 2 = some ⟨2, "bear", some 1⟩ ∧
    getTreeByRootId 4 [⟨1, "root", none⟩, ⟨2, "bear", some 1⟩, ⟨3, "cat", some 2⟩,
      ⟨4, "frog", some 1⟩] 2 = some none :=
  ⟨rfl,
    c10_nonroot_gives_null
      [⟨1, "root", none⟩, ⟨2, "bear", some 1⟩, ⟨3, "cat", some 2⟩, ⟨4, "frog", some 1⟩]
      2 ⟨2, "bear", some 1⟩ 1 [⟨3, "cat", some 2⟩] rfl rfl (by decide)⟩


/-! ## Claim C7 — validation of stores reachable through `create` -/



theorem nodeExists_true_iff {rows : List Node} {i : Nat} :
    nodeExists rows i = true ↔ ∃ r ∈ rows, r.id = i := by
  simp [nodeExists, List.any_eq_true]

/-- One `createNode` call preserves the invariant. -/
theorem storeInv_create (s : Store) (label : String) (parentId : Option Nat)
    (h : StoreInv s) : StoreInv (TreeQueries.createNode s label parentId).2 := by
  obtain ⟨hpos, hids, hnodup, hparents⟩ := h
  have hstep : ∀ pid, (∀ p, pid = some p → nodeExists s.rows p = true) →
      StoreInv ⟨s.rows ++ [⟨s.nextId, label, pid⟩], s.nextId + 1⟩ := by
    intro pid hpid
    refine ⟨by dsimp only; omega, ?_, ?_, ?_⟩
    · intro r hr
      dsimp only at hr ⊢
      rcases List.mem_append.mp hr with hr | hr
      · have := hids r hr
        exact ⟨this.1, by omega⟩
      · rw [List.mem_singleton.mp hr]
        exact ⟨hpos, by dsimp only; omega⟩
    · rw [List.map_append, List.nodup_append]
      refine ⟨hnodup, by simp, ?_⟩
      intro a ha hb
      simp only [List.map_cons, List.map_nil, List.mem_singleton] at hb
      rcases List.mem_map.mp ha with ⟨r, hr, hid⟩
      have := hids r hr
      omega
    · intro r hr p hp
      rcases List.mem_append.mp hr with hr | hr
      · obtain ⟨h1, h2⟩ := hparents r hr p hp
        rcases nodeExists_true_iff.mp h2 with ⟨q, hq, hqid⟩
        exact ⟨h1, nodeExists_true_iff.mpr ⟨q, List.mem_append_left _ hq, hqid⟩⟩
      · rw [List.mem_singleton.mp hr] at hp ⊢
        simp only at hp
        rcases nodeExists_true_iff.mp (hpid p hp) with ⟨q, hq, hqid⟩
        have hqlt : q.id < s.nextId := (hids q hq).2
        refine ⟨by dsimp only; omega, ?_⟩
        exact nodeExists_true_iff.mpr ⟨q, by dsimp only; exact List.mem_append_left _ hq, hqid⟩
  cases parentId with
  | none => exact hstep none (by simp)
  | some p =>
    by_cases hex : nodeExists s.rows p = true
    · simp only [TreeQueries.createNode, hex, if_true]
      exact hstep (some p) (fun q hq => by cases hq; exact hex)
    · have hnex : nodeExists s.rows p = false := by
        cases hb : nodeExists s.rows p with
        | false => rfl
        | true => exact absurd hb hex
      simp only [TreeQueries.createNode, hnex]
      exact ⟨hpos, hids, hnodup, hparents⟩

/-- Every store reachable through `create` satisfies the invariant. -/
theorem reachable_storeInv (s : Store) (h : ReachableStore s) : StoreInv s := by
  induction h with
  | empty => exact ⟨Nat.one_pos, by simp, by simp, by simp⟩
  | create s label pid _ ih => exact storeInv_create s label pid ih

/-- When every parent pointer has a strictly smaller id, every id collected
by the guarded ancestor-id walk is strictly below its starting id. -/
theorem ancestorIdsLoop_lt (rows : List Node)
    (hparents : ∀ r ∈ rows, ∀ p, r.parent_id = some p → p < r.id) :
    ∀ budget curId, ∀ x ∈ ancestorIdsLoop rows curId budget, x < curId := by
  intro budget
  induction budget with
  | zero => intro curId x hx; simp [ancestorIdsLoop] at hx
  | succ n ih =>
    intro curId x hx
    rw [ancestorIdsLoop] at hx
    by_cases h0 : curId = 0
    · rw [if_pos h0] at hx; simp at hx
    · rw [if_neg h0] at hx
      cases hfind : getNodeById rows curId with
      | none => rw [hfind] at hx; simp at hx
      | some node =>
        rw [hfind] at hx
        dsimp only at hx
        cases hp : node.parent_id with
        | none => rw [hp] at hx; simp at hx
        | some pid =>
          rw [hp] at hx
          obtain ⟨hmem, hid⟩ := getNodeById_mem_and_id hfind
          have hlt : pid < curId := hid ▸ hparents node hmem pid hp
          rcases List.mem_cons.mp hx with hxe | hxm
          · omega
          · exact lt_trans (ih pid x hxm) hlt

/-- No issue is reported for a node of a store whose parent pointers all
reference existing rows with smaller ids. -/
theorem issuesForNode_nil (rows nodes : List Node) (node : Node)
    (hperm : rows.Perm nodes)
    (hparents : ∀ r ∈ rows, ∀ p, r.parent_id = some p → p < r.id ∧ nodeExists rows p = true)
    (hmem : node ∈ rows) :
    issuesForNode rows nodes node = [] := by
  rw [issuesForNode]
  cases hp : node.parent_id with
  | none => rfl
  | some p =>
    obtain ⟨hlt, hex⟩ := hparents node hmem p hp
    have horph : nodes.any (fun r => r.id == p) = true := by
      rcases nodeExists_true_iff.mp hex with ⟨q, hq, hqid⟩
      rw [List.any_eq_true]
      exact ⟨q, hperm.subset hq, by simpa using hqid⟩
    have hnc : node.id ∉ getAncestorIds rows node.id := by
      intro hc
      have := ancestorIdsLoop_lt rows
        (fun r hr q hq => (hparents r hr q hq).1) 1000 node.id node.id hc
      omega
    dsimp only
    simp [horph, hnc]

theorem flattenNilOfAll {α β : Type} (l : List α) (f : α → List β)
    (h : ∀ x ∈ l, f x = []) : (l.map f).flatten = [] := by
  induction l with
  | nil => rfl
  | cons a t ih =>
    rw [List.map_cons, List.flatten_cons, h a (by simp), List.nil_append]
    exact ih (fun x hx => h x (List.mem_cons_of_mem a hx))

/-- C7: on every store reachable from the empty store by `create` calls
alone, `validateTreeStructure` (run with its default full-store argument)
reports `isValid: true` with an empty issue list — no orphaned-node,
circular-reference, or traversal-error issue. -/
theorem c7_validate_reachable (s : Store) (h : ReachableStore s) :
    (validateTreeStructureAll s.rows).isValid = true ∧
    (validateTreeStructureAll s.rows).issues = [] := by
  obtain ⟨_, _, _, hparents⟩ := reachable_storeInv s h
  have hperm : s.rows.Perm (getAllNodes s.rows) :=
    (List.perm_insertionSort _ _).symm
  have hissues : ∀ node ∈ getAllNodes s.rows,
      issuesForNode s.rows (getAllNodes s.rows) node = [] := by
    intro node hnode
    exact issuesForNode_nil _ _ node hperm hparents (hperm.symm.subset hnode)
  have hfl := flattenNilOfAll (getAllNodes s.rows)
    (issuesForNode s.rows (getAllNodes s.rows)) hissues
  rw [validateTreeStructureAll, validateTreeStructure]
  constructor
  · simp only [hfl]
    rfl
  · simpa using hfl

/-- C7 witness: the store obtained by creating a root and one child. -/
theorem c7_witness :
    (validateTreeStructureAll
      ((TreeQueries.createNode
        ((TreeQueries.createNode ⟨[], 1⟩ "root" none).2) "kid" (some 1)).2).rows).isValid
      = true :=
  (c7_validate_reachable _
    (ReachableStore.create _ "kid" (some 1)
      (ReachableStore.create _ "root" none ReachableStore.empty))).1

/-! ## Claim C4 — order-insensitivity of `buildHierarchy` -/

theorem sortTree_eq (i : Nat) (l : String) (cs : List TreeNode) :
    sortTree (.mk i l cs) = .mk i l ((sortByNodeId cs).map sortTree) := by
  rw [sortTree]
  rw [List.attach_map_val]

theorem nid_sortTree (t : TreeNode) : (sortTree t).nid = t.nid := by
  cases t with
  | mk i l cs => rw [sortTree_eq]; rfl

/-- Structural induction over `TreeNode` through the `children` list. -/
theorem TreeNode.strongInduction {P : TreeNode → Prop}
    (h : ∀ i l cs, (∀ c ∈ cs, P c) → P (.mk i l cs)) : ∀ t, P t
  | .mk i l cs => h i l cs (fun c _ => TreeNode.strongInduction h c)
termination_by t => sizeOf t
decreasing_by
  have := List.sizeOf_lt_of_mem (by assumption : c ∈ cs)
  simp only [TreeNode.mk.sizeOf_spec]
  omega

theorem slotTree_nid (nodes : List Node) (rootPid : Option Nat) (fuel i : Nat) :
    (slotTree nodes rootPid fuel i).nid = i := by
  cases fuel <;> rfl

/-- Characterisation of a map slot in a duplicate-free node list. -/
theorem slotNode_eq_some_iff {nodes : List Node} {i : Nat} {r : Node}
    (hnodup : (nodes.map Node.id).Nodup) :
    slotNode nodes i = some r ↔ r ∈ nodes ∧ r.id = i := by
  constructor
  · intro h
    have hm := List.mem_of_find?_eq_some h
    have hp := List.find?_some h
    simp only [beq_iff_eq] at hp
    exact ⟨List.mem_reverse.mp hm, hp⟩
  · rintro ⟨hm, hid⟩
    cases hfind : slotNode nodes i with
    | none =>
      rw [slotNode, List.find?_eq_none] at hfind
      exact absurd (by simpa using hid) (hfind r (List.mem_reverse.mpr hm))
    | some q =>
      have hqm := List.mem_of_find?_eq_some hfind
      have hqp := List.find?_some hfind
      simp only [beq_iff_eq] at hqp
      have : q = r :=
        List.inj_on_of_nodup_map hnodup (List.mem_reverse.mp hqm) hm
          (by rw [hqp, hid])
      rw [this]

theorem slotNode_eq_none_iff {nodes : List Node} {i : Nat} :
    slotNode nodes i = none ↔ ∀ r ∈ nodes, r.id ≠ i := by
  rw [slotNode, List.find?_eq_none]
  constructor
  · intro h r hr
    simpa using h r (List.mem_reverse.mpr hr)
  · intro h r hr
    simpa using h r (List.mem_reverse.mp hr)

/-- A permutation of a duplicate-free node list has the same map slots. -/
theorem slotNode_perm {nodes nodes' : List Node} (hperm : nodes.Perm nodes')
    (hnodup : (nodes.map Node.id).Nodup) (i : Nat) :
    slotNode nodes i = slotNode nodes' i := by
  have hnodup' : (nodes'.map Node.id).Nodup := (hperm.map Node.id).nodup_iff.mp hnodup
  cases h : slotNode nodes i with
  | none =>
    rw [slotNode_eq_none_iff] at h
    rw [eq_comm, slotNode_eq_none_iff]
    intro r hr
    exact h r (hperm.mem_iff.mpr hr)
  | some r =>
    rw [slotNode_eq_some_iff hnodup] at h
    rw [eq_comm, slotNode_eq_some_iff hnodup']
    exact ⟨hperm.subset h.1, h.2⟩

theorem slotLabel_perm {nodes nodes' : List Node} (hperm : nodes.Perm nodes')
    (hnodup : (nodes.map Node.id).Nodup) (i : Nat) :
    slotLabel nodes i = slotLabel nodes' i := by
  rw [slotLabel, slotLabel, slotNode_perm hperm hnodup i]

theorem attachIds_perm {nodes nodes' : List Node} (hperm : nodes.Perm nodes')
    (rootPid : Option Nat) (i : Nat) :
    (attachIds nodes rootPid i).Perm (attachIds nodes' rootPid i) :=
  (hperm.filter _).map Node.id

theorem attachIds_nodup {nodes : List Node} (hnodup : (nodes.map Node.id).Nodup)
    (rootPid : Option Nat) (i : Nat) : (attachIds nodes rootPid i).Nodup := by
  have hsub : List.Sublist
      ((nodes.filter
        (fun c => c.parent_id == some i && c.parent_id != rootPid)).map Node.id)
      (nodes.map Node.id) :=
    (List.filter_sublist nodes).map Node.id
  exact hnodup.sublist hsub




/-- Two sorted lists of trees with the same duplicate-free id multiset are
equal. -/
theorem sorted_nodup_eq {A A' : List TreeNode} (hperm : A.Perm A')
    (hsA : List.Sorted (fun a b : TreeNode => a.nid ≤ b.nid) A)
    (hsA' : List.Sorted (fun a b : TreeNode => a.nid ≤ b.nid) A')
    (hnA : (A.map TreeNode.nid).Nodup) : A = A' := by
  have hnA' : (A'.map TreeNode.nid).Nodup := ((hperm.map _).nodup_iff).mp hnA
  have hstrict : ∀ (B : List TreeNode),
      List.Sorted (fun a b : TreeNode => a.nid ≤ b.nid) B →
      (B.map TreeNode.nid).Nodup →
      List.Sorted (fun a b : TreeNode => a.nid < b.nid) B := by
    intro B hs hn
    have hne : List.Pairwise (fun a b : TreeNode => a.nid ≠ b.nid) B :=
      List.pairwise_map.mp hn
    exact (hs.and hne).imp (fun hab => Nat.lt_of_le_of_ne hab.1 hab.2)
  exact List.eq_of_perm_of_sorted hperm (hstrict A hsA hnA) (hstrict A' hsA' hnA')

theorem map_nid_map_sortTree (L : List TreeNode) :
    (L.map sortTree).map TreeNode.nid = L.map TreeNode.nid := by
  rw [List.map_map]
  exact List.map_congr_left (fun t _ => nid_sortTree t)

theorem sorted_map_sortTree {L : List TreeNode}
    (h : List.Sorted (fun a b : TreeNode => a.nid ≤ b.nid) L) :
    List.Sorted (fun a b : TreeNode => a.nid ≤ b.nid) (L.map sortTree) := by
  rw [List.Sorted, List.pairwise_map]
  exact h.imp (fun hab => by
    rw [nid_sortTree, nid_sortTree]
    exact hab)

/-- Ids of the raw children of a slot are exactly the attach list. -/
theorem map_nid_slotChildren (nodes : List Node) (rootPid : Option Nat)
    (f i : Nat) :
    ((attachIds nodes rootPid i).map (slotTree nodes rootPid f)).map TreeNode.nid =
      attachIds nodes rootPid i := by
  rw [List.map_map]
  calc (attachIds nodes rootPid i).map (TreeNode.nid ∘ slotTree nodes rootPid f)
      = (attachIds nodes rootPid i).map id :=
        List.map_congr_left (fun j _ => slotTree_nid nodes rootPid f j)
    _ = attachIds nodes rootPid i := List.map_id _

/-- Core of C4: after the sorting post-pass, the map slot of any id
materialises to the same tree over any permutation of a duplicate-free node
list. -/
theorem sortTree_slotTree_perm_eq {nodes nodes' : List Node} (rootPid : Option Nat)
    (hperm : nodes.Perm nodes') (hnodup : (nodes.map Node.id).Nodup) :
    ∀ fuel i, sortTree (slotTree nodes rootPid fuel i) =
      sortTree (slotTree nodes' rootPid fuel i) := by
  intro fuel
  induction fuel with
  | zero =>
    intro i
    simp only [slotTree, slotLabel_perm hperm hnodup]
  | succ f ih =>
    intro i
    simp only [slotTree, sortTree_eq, slotLabel_perm hperm hnodup]
    congr 1
    have hattP : (attachIds nodes rootPid i).Perm (attachIds nodes' rootPid i) :=
      attachIds_perm hperm rootPid i
    have hattN : (attachIds nodes rootPid i).Nodup := attachIds_nodup hnodup rootPid i
    have hAperm :
        ((sortByNodeId ((attachIds nodes rootPid i).map (slotTree nodes rootPid f))).map
            sortTree).Perm
          ((sortByNodeId ((attachIds nodes' rootPid i).map (slotTree nodes' rootPid f))).map
            sortTree) := by
      have h1 := (List.perm_insertionSort (fun a b : TreeNode => a.nid ≤ b.nid)
        ((attachIds nodes rootPid i).map (slotTree nodes rootPid f))).map sortTree
      have h2 := (List.perm_insertionSort (fun a b : TreeNode => a.nid ≤ b.nid)
        ((attachIds nodes' rootPid i).map (slotTree nodes' rootPid f))).map sortTree
      refine h1.trans (List.Perm.trans ?_ h2.symm)
      rw [List.map_map, List.map_map]
      have hcongr : (attachIds nodes rootPid i).map (sortTree ∘ slotTree nodes rootPid f) =
          (attachIds nodes rootPid i).map (sortTree ∘ slotTree nodes' rootPid f) :=
        List.map_congr_left (fun j _ => ih j)
      rw [hcongr]
      exact hattP.map _
    refine sorted_nodup_eq hAperm ?_ ?_ ?_
    · exact sorted_map_sortTree (List.sorted_insertionSort _ _)
    · exact sorted_map_sortTree (List.sorted_insertionSort _ _)
    · rw [map_nid_map_sortTree]
      have hP : ((sortByNodeId ((attachIds nodes rootPid i).map
          (slotTree nodes rootPid f))).map TreeNode.nid).Perm
            (attachIds nodes rootPid i) := by
        have := (List.perm_insertionSort (fun a b : TreeNode => a.nid ≤ b.nid)
          ((attachIds nodes rootPid i).map (slotTree nodes rootPid f))).map TreeNode.nid
        rw [map_nid_slotChildren] at this
        exact this
      exact hP.nodup_iff.mpr hattN

/-- C4 amended: for a node list with pairwise-distinct ids, `buildHierarchy`
is insensitive to input order *up to the order of the top-level list*: a
permutation of the input yields a permutation of the returned forest whose
trees are identical (every `children` array equal and ascending by id); the
top-level root sequence itself follows input order and is not sorted. -/
theorem c4_amended_perm (nodes nodes' : List Node) (rootPid : Option Nat)
    (hperm : nodes.Perm nodes') (hnodup : (nodes.map Node.id).Nodup) :
    (buildHierarchy nodes rootPid).Perm (buildHierarchy nodes' rootPid) := by
  rw [buildHierarchy, buildHierarchy, sortChildrenRecursively, sortChildrenRecursively,
    rawForest, rawForest, List.map_map, List.map_map]
  have hlen := hperm.length_eq
  have hcongr : (nodes.filter (fun n => n.parent_id == rootPid)).map
        (sortTree ∘ fun n => slotTree nodes rootPid nodes.length n.id) =
      (nodes.filter (fun n => n.parent_id == rootPid)).map
        (sortTree ∘ fun n => slotTree nodes' rootPid nodes'.length n.id) :=
    List.map_congr_left (fun n _ => by
      show sortTree (slotTree nodes rootPid nodes.length n.id) =
        sortTree (slotTree nodes' rootPid nodes'.length n.id)
      rw [hlen]
      exact sortTree_slotTree_perm_eq rootPid hperm hnodup nodes'.length n.id)
  rw [hcongr]
  exact (hperm.filter _).map _

/-- C4 counterexample: two root nodes given in the two possible orders — the
two (permuted) inputs produce different root sequences, so the output forest
is not the same sequence of root `TreeNode`s. -/
theorem c4_counterexample :
    ([⟨1, "a", none⟩, ⟨2, "b", none⟩] : List Node).Perm
      [⟨2, "b", none⟩, ⟨1, "a", none⟩] ∧
    (buildHierarchy [⟨1, "a", none⟩, ⟨2, "b", none⟩] none).map TreeNode.nid = [1, 2] ∧
    (buildHierarchy [⟨2, "b", none⟩, ⟨1, "a", none⟩] none).map TreeNode.nid = [2, 1] ∧
    buildHierarchy [⟨1, "a", none⟩, ⟨2, "b", none⟩] none ≠
      buildHierarchy [⟨2, "b", none⟩, ⟨1, "a", none⟩] none := by
  have hs : ∀ (i : Nat) (l : String), sortTree (.mk i l []) = .mk i l [] := by
    intro i l
    rw [sortTree_eq]
    rfl
  have h1 : buildHierarchy [⟨1, "a", none⟩, ⟨2, "b", none⟩] none =
      [.mk 1 "a" [], .mk 2 "b" []] := by
    rw [buildHierarchy,
      show rawForest [⟨1, "a", none⟩, ⟨2, "b", none⟩] none =
        [TreeNode.mk 1 "a" [], TreeNode.mk 2 "b" []] from rfl,
      sortChildrenRecursively, List.map_cons, List.map_cons, List.map_nil, hs, hs]
  have h2 : buildHierarchy [⟨2, "b", none⟩, ⟨1, "a", none⟩] none =
      [.mk 2 "b" [], .mk 1 "a" []] := by
    rw [buildHierarchy,
      show rawForest [⟨2, "b", none⟩, ⟨1, "a", none⟩] none =
        [TreeNode.mk 2 "b" [], TreeNode.mk 1 "a" []] from rfl,
      sortChildrenRecursively, List.map_cons, List.map_cons, List.map_nil, hs, hs]
  refine ⟨by decide, by rw [h1]; rfl, by rw [h2]; rfl, by rw [h1, h2]; simp⟩

/-- C4 witness: the amended permutation statement on the counterexample
input pair. -/
theorem c4_witness :
    ([⟨1, "a", none⟩, ⟨2, "b", none⟩] : List Node).Perm
      [⟨2, "b", none⟩, ⟨1, "a", none⟩] ∧
    (([⟨1, "a", none⟩, ⟨2, "b", none⟩] : List Node).map Node.id).Nodup ∧
    (buildHierarchy [⟨1, "a", none⟩, ⟨2, "b", none⟩] none).Perm
      (buildHierarchy [⟨2, "b", none⟩, ⟨1, "a", none⟩] none) :=
  ⟨by decide, by decide,
    c4_amended_perm [⟨1, "a", none⟩, ⟨2, "b", none⟩]
      [⟨2, "b", none⟩, ⟨1, "a", none⟩] none (by decide) (by decide)⟩

/-! ## Claim C5 — node count of `buildHierarchy` -/






theorem chainIdAt_zero (rows : List Node) (i : Nat) : chainIdAt rows i 0 = some i := rfl

theorem chainIdAt_succ_left (rows : List Node) (i k : Nat) :
    chainIdAt rows i (k + 1) =
      match stepParent rows i with
      | none => none
      | some p => chainIdAt rows p k := rfl

/-- Snoc form: one more step happens at the far end of the chain. -/
theorem chainIdAt_succ_right (rows : List Node) :
    ∀ k i, chainIdAt rows i (k + 1) = (chainIdAt rows i k).bind (stepParent rows) := by
  intro k
  induction k with
  | zero =>
    intro i
    rw [chainIdAt_succ_left, chainIdAt_zero, Option.some_bind]
    cases stepParent rows i <;> rfl
  | succ m ih =>
    intro i
    rw [chainIdAt_succ_left, chainIdAt_succ_left (k := m)]
    cases hs : stepParent rows i with
    | none => rfl
    | some p => exact ih p

theorem hitsWithin_iff {rows : List Node} {front : List Nat} {K i : Nat} :
    hitsWithin rows front K i = true ↔
      ∃ k ≤ K, ∃ j ∈ front, chainIdAt rows i k = some j := by
  rw [hitsWithin, List.any_eq_true]
  constructor
  · rintro ⟨k, hk, hp⟩
    rcases hc : chainIdAt rows i k with _ | j
    · rw [hc] at hp; simp at hp
    · rw [hc] at hp
      refine ⟨k, by simpa [Nat.lt_succ_iff] using List.mem_range.mp hk, j, ?_, hc⟩
      simpa using hp
  · rintro ⟨k, hk, j, hj, hc⟩
    refine ⟨k, List.mem_range.mpr (by omega), ?_⟩
    rw [hc]
    simpa using hj

/-- In a duplicate-free store, a member row is what `getNodeById` finds. -/
theorem getNodeById_of_mem_nodup {rows : List Node} {r : Node}
    (hnodup : (rows.map Node.id).Nodup) (hr : r ∈ rows) :
    getNodeById rows r.id = some r := by
  cases hfind : getNodeById rows r.id with
  | none =>
    rw [getNodeById, List.find?_eq_none] at hfind
    exact absurd (by simp) (hfind r hr)
  | some q =>
    obtain ⟨hqm, hqid⟩ := getNodeById_mem_and_id hfind
    rw [List.inj_on_of_nodup_map hnodup hqm hr hqid]

/-- Membership in the attach list of slot `j` (whole-forest mode). -/
theorem mem_attachIds_none_iff {rows : List Node} {j c : Nat} :
    c ∈ attachIds rows none j ↔ ∃ r ∈ rows, r.id = c ∧ r.parent_id = some j := by
  rw [attachIds]
  constructor
  · intro h
    rcases List.mem_map.mp h with ⟨r, hrf, hid⟩
    have hp := List.of_mem_filter hrf
    simp only [Bool.and_eq_true, beq_iff_eq] at hp
    exact ⟨r, List.mem_of_mem_filter hrf, hid, hp.1⟩
  · rintro ⟨r, hr, hid, hp⟩
    refine List.mem_map.mpr ⟨r, List.mem_filter.mpr ⟨hr, ?_⟩, hid⟩
    simp [hp]

/-- Forward step through an attach list. -/
theorem stepParent_of_mem_attachIds {rows : List Node} {j c : Nat}
    (hnodup : (rows.map Node.id).Nodup) (h : c ∈ attachIds rows none j) :
    stepParent rows c = some j := by
  rcases mem_attachIds_none_iff.mp h with ⟨r, hr, hid, hp⟩
  have hg : getNodeById rows c = some r := by
    rw [← hid]
    exact getNodeById_of_mem_nodup hnodup hr
  rw [stepParent, hg]
  exact hp

/-- A defined parent step lands `c` in the attach list of its parent. -/
theorem mem_attachIds_of_stepParent {rows : List Node} {j c : Nat}
    (h : stepParent rows c = some j) : c ∈ attachIds rows none j := by
  rw [stepParent] at h
  cases hfind : getNodeById rows c with
  | none => rw [hfind] at h; cases h
  | some r =>
    rw [hfind] at h
    obtain ⟨hrm, hrid⟩ := getNodeById_mem_and_id hfind
    exact mem_attachIds_none_iff.mpr ⟨r, hrm, hrid, h⟩

theorem countNodesInTree_eq (i : Nat) (l : String) (cs : List TreeNode) :
    countNodesInTree (.mk i l cs) = 1 + (cs.map countNodesInTree).sum := by
  rw [countNodesInTree]
  rw [List.attach_map_val]

theorem count_slotTree_zero (nodes : List Node) (rp : Option Nat) (i : Nat) :
    countNodesInTree (slotTree nodes rp 0 i) = 1 := by
  simp only [slotTree]
  rw [countNodesInTree_eq]
  rfl

theorem count_slotTree_succ (nodes : List Node) (rp : Option Nat) (f i : Nat) :
    countNodesInTree (slotTree nodes rp (f + 1) i) =
      1 + ((attachIds nodes rp i).map
        (fun j => countNodesInTree (slotTree nodes rp f j))).sum := by
  simp only [slotTree]
  rw [countNodesInTree_eq, List.map_map]
  rfl

/-- The sorting post-pass only permutes children, so counts are unchanged. -/
theorem count_sortTree : ∀ t, countNodesInTree (sortTree t) = countNodesInTree t := by
  refine TreeNode.strongInduction ?_
  intro i l cs ih
  rw [sortTree_eq, countNodesInTree_eq, countNodesInTree_eq, List.map_map]
  congr 1
  have hp : (sortByNodeId cs).Perm cs := List.perm_insertionSort _ _
  have h1 : (sortByNodeId cs).map (countNodesInTree ∘ sortTree) =
      (sortByNodeId cs).map countNodesInTree :=
    List.map_congr_left (fun c hc => ih c (hp.subset hc))
  rw [h1]
  exact List.Perm.sum_eq (hp.map countNodesInTree)

theorem length_filter_or_disjoint (l : List Node) (p q : Node → Bool)
    (h : ∀ x ∈ l, ¬(p x = true ∧ q x = true)) :
    (l.filter (fun x => p x || q x)).length =
      (l.filter p).length + (l.filter q).length := by
  induction l with
  | nil => rfl
  | cons a t ih =>
    have ht : ∀ x ∈ t, ¬(p x = true ∧ q x = true) :=
      fun x hx => h x (List.mem_cons_of_mem a hx)
    rw [List.filter_cons, List.filter_cons, List.filter_cons]
    cases hpa : p a with
    | true =>
      have hqa : q a = false := by
        cases hq : q a with
        | false => rfl
        | true => exact absurd ⟨hpa, hq⟩ (h a (by simp))
      simp only [hpa, hqa, Bool.true_or, if_true, if_false, Bool.false_eq_true,
        List.length_cons, ih ht]
      omega
    | false =>
      cases hqa : q a with
      | true =>
        simp only [hpa, hqa, Bool.false_or, if_true, if_false, Bool.false_eq_true,
          List.length_cons, ih ht]
        omega
      | false =>
        simp only [hpa, hqa, Bool.false_or, if_false, Bool.false_eq_true, ih ht]

theorem length_filter_front (rows : List Node) (front : List Nat)
    (hnodupR : (rows.map Node.id).Nodup) (hnodupF : front.Nodup)
    (hsub : ∀ j ∈ front, j ∈ rows.map Node.id) :
    (rows.filter (fun r => front.contains r.id)).length = front.length := by
  have hNsub : ((rows.filter (fun r => front.contains r.id)).map Node.id).Nodup :=
    hnodupR.sublist ((List.filter_sublist rows).map Node.id)
  have hperm : ((rows.filter (fun r => front.contains r.id)).map Node.id).Perm front := by
    rw [List.perm_ext_iff_of_nodup hNsub hnodupF]
    intro a
    constructor
    · intro ha
      rcases List.mem_map.mp ha with ⟨r, hrf, hid⟩
      have := List.of_mem_filter hrf
      rw [← hid]
      simpa using this
    · intro ha
      rcases List.mem_map.mp (hsub a ha) with ⟨r, hr, hid⟩
      refine List.mem_map.mpr ⟨r, List.mem_filter.mpr ⟨hr, ?_⟩, hid⟩
      simp only [hid]
      simpa using ha
  calc (rows.filter (fun r => front.contains r.id)).length
      = ((rows.filter (fun r => front.contains r.id)).map Node.id).length := by
        rw [List.length_map]
    _ = front.length := hperm.length_eq

theorem sum_map_flatMap (front : List Nat) (att : Nat → List Nat) (g : Nat → Nat) :
    ((front.flatMap att).map g).sum = (front.map (fun j => ((att j).map g).sum)).sum := by
  induction front with
  | nil => rfl
  | cons a t ih =>
    rw [show (a :: t).flatMap att = att a ++ t.flatMap att from rfl,
      List.map_append, List.sum_append, List.map_cons, List.sum_cons, ih]

theorem sum_map_one (l : List Nat) : (l.map (fun _ => (1 : Nat))).sum = l.length := by
  induction l with
  | nil => rfl
  | cons a t ih =>
    simp [ih]
    omega

/-- Frontier counting: the total size of the raw slot trees of a separated,
duplicate-free frontier equals the number of rows whose parent chain reaches
the frontier within the materialisation depth. -/
theorem frontier_count (rows : List Node) (hnodup : (rows.map Node.id).Nodup) :
    ∀ fuel (front : List Nat), front.Nodup →
      (∀ j ∈ front, j ∈ rows.map Node.id) →
      FrontSep rows front →
      (front.map (fun j => countNodesInTree (slotTree rows none fuel j))).sum
        = (rows.filter (fun r => hitsWithin rows front fuel r.id)).length := by
  intro fuel
  induction fuel with
  | zero =>
    intro front hnF hsub _
    have hL : (front.map (fun j => countNodesInTree (slotTree rows none 0 j))).sum
        = front.length := by
      rw [List.map_congr_left (fun j _ => count_slotTree_zero rows none j), sum_map_one]
    have hR : rows.filter (fun r => hitsWithin rows front 0 r.id)
        = rows.filter (fun r => front.contains r.id) := by
      apply List.filter_congr
      intro r _
      apply Bool.coe_iff_coe.mp
      rw [hitsWithin_iff]
      constructor
      · rintro ⟨k, hk, j, hj, hc⟩
        interval_cases k
        rw [chainIdAt_zero] at hc
        cases hc
        exact List.elem_iff.mpr hj
      · intro h
        exact ⟨0, le_refl 0, r.id, List.elem_iff.mp h, chainIdAt_zero rows r.id⟩
    rw [hL, hR, length_filter_front rows front hnodup hnF hsub]
  | succ f ih =>
    intro front hnF hsub hsep
    have hL1 : (front.map (fun j => countNodesInTree (slotTree rows none (f + 1) j))).sum
        = front.length +
          ((front.flatMap (fun j => attachIds rows none j)).map
            (fun c => countNodesInTree (slotTree rows none f c))).sum := by
      rw [List.map_congr_left (fun j _ => count_slotTree_succ rows none f j),
        List.sum_map_add, sum_map_one, ← sum_map_flatMap]
    have hnF' : (front.flatMap (fun j => attachIds rows none j)).Nodup := by
      rw [show front.flatMap (fun j => attachIds rows none j)
          = (front.map (fun j => attachIds rows none j)).flatten from rfl,
        List.nodup_flatten]
      constructor
      · intro l hl
        rcases List.mem_map.mp hl with ⟨j, _, rfl⟩
        exact attachIds_nodup hnodup none j
      · rw [List.pairwise_map]
        refine hnF.imp ?_
        intro j1 j2 hne c hc1 hc2
        have e1 := stepParent_of_mem_attachIds hnodup hc1
        have e2 := stepParent_of_mem_attachIds hnodup hc2
        rw [e1] at e2
        exact hne (Option.some.inj e2)
    have hsub' : ∀ c ∈ front.flatMap (fun j => attachIds rows none j),
        c ∈ rows.map Node.id := by
      intro c hc
      rcases List.mem_flatMap.mp hc with ⟨j, _, hcj⟩
      rcases mem_attachIds_none_iff.mp hcj with ⟨r, hr, hid, _⟩
      exact List.mem_map.mpr ⟨r, hr, hid⟩
    have hsep' : FrontSep rows (front.flatMap (fun j => attachIds rows none j)) := by
      intro c hc k hk j' hchain hj'
      rcases List.mem_flatMap.mp hc with ⟨j0, hj0, hcj0⟩
      rcases List.mem_flatMap.mp hj' with ⟨j1, hj1, hj'1⟩
      have hstep : stepParent rows j' = some j1 := stepParent_of_mem_attachIds hnodup hj'1
      have hext : chainIdAt rows c (k + 1) = some j1 := by
        rw [chainIdAt_succ_right, hchain, Option.some_bind, hstep]
      have hstep0 : stepParent rows c = some j0 := stepParent_of_mem_attachIds hnodup hcj0
      have hpeel : chainIdAt rows c (k + 1) = chainIdAt rows j0 k := by
        rw [chainIdAt_succ_left, hstep0]
      rw [hpeel] at hext
      exact hsep j0 hj0 k hk j1 hext hj1
    have hpoint : ∀ r ∈ rows, hitsWithin rows front (f + 1) r.id =
        (front.contains r.id ||
          hitsWithin rows (front.flatMap (fun j => attachIds rows none j)) f r.id) := by
      intro r _
      apply Bool.coe_iff_coe.mp
      rw [Bool.or_eq_true, hitsWithin_iff, hitsWithin_iff]
      constructor
      · rintro ⟨k, hk, j, hj, hc⟩
        cases k with
        | zero =>
          rw [chainIdAt_zero] at hc
          cases hc
          exact Or.inl (List.elem_iff.mpr hj)
        | succ m =>
          rw [chainIdAt_succ_right] at hc
          rcases Option.bind_eq_some.mp hc with ⟨c, hcm, hstep⟩
          refine Or.inr ⟨m, by omega, c, ?_, hcm⟩
          exact List.mem_flatMap.mpr ⟨j, hj, mem_attachIds_of_stepParent hstep⟩
      · rintro (h | ⟨m, hm, c, hc, hcm⟩)
        · exact ⟨0, by omega, r.id, List.elem_iff.mp h, chainIdAt_zero rows r.id⟩
        · rcases List.mem_flatMap.mp hc with ⟨j1, hj1, hcj1⟩
          have hstep : stepParent rows c = some j1 :=
            stepParent_of_mem_attachIds hnodup hcj1
          refine ⟨m + 1, by omega, j1, hj1, ?_⟩
          rw [chainIdAt_succ_right, hcm, Option.some_bind, hstep]
    have hdisj : ∀ r ∈ rows, ¬(front.contains r.id = true ∧
        hitsWithin rows (front.flatMap (fun j => attachIds rows none j)) f r.id = true) := by
      rintro r _ ⟨h1, h2⟩
      rcases hitsWithin_iff.mp h2 with ⟨m, hm, c, hc, hchain⟩
      rcases List.mem_flatMap.mp hc with ⟨j1, hj1, hcj1⟩
      have hstep : stepParent rows c = some j1 := stepParent_of_mem_attachIds hnodup hcj1
      have hext : chainIdAt rows r.id (m + 1) = some j1 := by
        rw [chainIdAt_succ_right, hchain, Option.some_bind, hstep]
      exact hsep r.id (List.elem_iff.mp h1) (m + 1) (by omega) j1 hext hj1
    rw [hL1, ih (front.flatMap (fun j => attachIds rows none j)) hnF' hsub' hsep',
      List.filter_congr hpoint,
      length_filter_or_disjoint rows _ _ hdisj,
      length_filter_front rows front hnodup hnF hsub]

theorem rootIds_nodup {nodes : List Node} (hnodup : (nodes.map Node.id).Nodup) :
    (rootIds nodes).Nodup :=
  hnodup.sublist ((List.filter_sublist nodes).map Node.id)

theorem rootIds_sub {nodes : List Node} :
    ∀ j ∈ rootIds nodes, j ∈ nodes.map Node.id := by
  intro j hj
  rcases List.mem_map.mp hj with ⟨r, hrf, hid⟩
  exact List.mem_map.mpr ⟨r, List.mem_of_mem_filter hrf, hid⟩

theorem rootIds_sep {nodes : List Node} (hnodup : (nodes.map Node.id).Nodup) :
    FrontSep nodes (rootIds nodes) := by
  intro j hj k hk j' hchain _
  rcases List.mem_map.mp hj with ⟨r, hrf, hid⟩
  have hroot : r.parent_id = none := by
    simpa using List.of_mem_filter hrf
  have hstep : stepParent nodes j = none := by
    rw [stepParent, ← hid, getNodeById_of_mem_nodup hnodup (List.mem_of_mem_filter hrf)]
    exact hroot
  obtain ⟨m, rfl⟩ : ∃ m, k = m + 1 := ⟨k - 1, by omega⟩
  rw [chainIdAt_succ_left, hstep] at hchain
  cases hchain

/-- C5 amended: for every node list with pairwise-distinct ids whose parent
chains all reach a root of the list within `nodes.length` steps (i.e. every
non-null `parent_id` is present *and* the parent pointers are acyclic), the
total `TreeNode` count of `buildHierarchy(nodes, null)` equals the length of
the input list. -/
theorem c5_amended_count (nodes : List Node)
    (hnodup : (nodes.map Node.id).Nodup)
    (hacyc : ∀ r ∈ nodes, hitsWithin nodes (rootIds nodes) nodes.length r.id = true) :
    totalCount (buildHierarchy nodes none) = nodes.length := by
  rw [totalCount, buildHierarchy, sortChildrenRecursively, rawForest,
    List.map_map, List.map_map]
  have h1 : (nodes.filter (fun n => n.parent_id == none)).map
        ((countNodesInTree ∘ sortTree) ∘ fun n => slotTree nodes none nodes.length n.id) =
      (nodes.filter (fun n => n.parent_id == none)).map
        ((fun j => countNodesInTree (slotTree nodes none nodes.length j)) ∘ Node.id) :=
    List.map_congr_left (fun n _ => count_sortTree _)
  rw [h1, ← List.map_map]
  rw [show (nodes.filter (fun n => n.parent_id == none)).map Node.id = rootIds nodes from rfl]
  rw [frontier_count nodes hnodup nodes.length (rootIds nodes)
    (rootIds_nodup hnodup) rootIds_sub (rootIds_sep hnodup)]
  rw [List.filter_eq_self.mpr hacyc]

/-- C5 counterexample: a two-node `parent_id` cycle.  Every non-null
`parent_id` is present as an id of the list (the closure condition of the
claim), but `buildHierarchy` drops both nodes, so the total count is 0, not
2. -/
theorem c5_counterexample :
    cycRows.all (fun r =>
      match r.parent_id with
      | none => true
      | some p => (cycRows.map Node.id).contains p) = true ∧
    totalCount (buildHierarchy cycRows none) = 0 ∧
    cycRows.length = 2 := by
  refine ⟨rfl, ?_, rfl⟩
  rw [buildHierarchy, show rawForest cycRows none = [] from rfl]
  rfl

/-- C5 witness: a concrete root-and-child store for the amended count. -/
theorem c5_witness :
    (([⟨1, "r", none⟩, ⟨2, "c", some 1⟩] : List Node).map Node.id).Nodup ∧
    (∀ r ∈ ([⟨1, "r", none⟩, ⟨2, "c", some 1⟩] : List Node),
      hitsWithin [⟨1, "r", none⟩, ⟨2, "c", some 1⟩]
        (rootIds [⟨1, "r", none⟩, ⟨2, "c", some 1⟩]) 2 r.id = true) ∧
    totalCount (buildHierarchy [⟨1, "r", none⟩, ⟨2, "c", some 1⟩] none) = 2 :=
  ⟨by decide, by decide,
    c5_amended_count [⟨1, "r", none⟩, ⟨2, "c", some 1⟩] (by decide) (by decide)⟩

/-! ## Claim C1 — effect of `moveNodeAndSubtree` on the store -/


theorem parentsSeen_append : ∀ (l1 l2 : List Node) (seen : List Nat),
    parentsSeen seen (l1 ++ l2) =
      (parentsSeen seen l1 && parentsSeen (seen ++ l1.map Node.id) l2) := by
  intro l1
  induction l1 with
  | nil =>
    intro l2 seen
    simp [parentsSeen]
  | cons d t ih =>
    intro l2 seen
    rw [List.cons_append, parentsSeen, parentsSeen]
    cases hp : d.parent_id with
    | none => rfl
    | some p =>
      rw [ih l2 (seen ++ [d.id]), Bool.and_assoc]
      rw [List.map_cons, List.append_assoc]
      rfl

theorem parentsSeen_mono : ∀ (l : List Node) (seen seen' : List Nat),
    (∀ x ∈ seen, x ∈ seen') → parentsSeen seen l = true → parentsSeen seen' l = true := by
  intro l
  induction l with
  | nil => intro seen seen' _ _; rfl
  | cons d t ih =>
    intro seen seen' hsub h
    rw [parentsSeen] at h ⊢
    cases hp : d.parent_id with
    | none => rw [hp] at h; cases h
    | some p =>
      rw [hp] at h
      rw [Bool.and_eq_true] at h
      rcases h with ⟨h1, h2⟩
      rw [Bool.and_eq_true]
      refine ⟨?_, ?_⟩
      · exact List.elem_iff.mpr (hsub p (List.elem_iff.mp h1))
      · refine ih (seen ++ [d.id]) (seen' ++ [d.id]) ?_ h2
        intro x hx
        rcases List.mem_append.mp hx with hx | hx
        · exact List.mem_append_left _ (hsub x hx)
        · exact List.mem_append_right _ hx

/-- A finished descendant walk lists every node after its parent: the walk
is `parentsSeen` with respect to any id set containing the start. -/
theorem getAllDescendants_seen :
    ∀ fuel, (∀ (rows : List Node) (cs : List Node) (ds : List Node) (seen : List Nat),
        (∀ c ∈ cs, ∃ p, c.parent_id = some p ∧ p ∈ seen) →
        descendantsOfChildren fuel rows cs = some ds →
        parentsSeen seen ds = true) ∧
      (∀ (rows : List Node) (nid : Nat) (ds : List Node) (seen : List Nat),
        nid ∈ seen → getAllDescendants fuel rows nid = some ds →
        parentsSeen seen ds = true) := by
  intro fuel
  induction fuel with
  | zero =>
    constructor
    · intro rows cs ds seen _ hds
      cases cs with
      | nil =>
        rw [descendantsOfChildren_nil] at hds
        cases hds
        rfl
      | cons c cs' =>
        rw [descendantsOfChildren_cons, getAllDescendants_zero] at hds
        simp at hds
    · intro rows nid ds seen _ hds
      rw [getAllDescendants_zero] at hds
      simp at hds
  | succ f ih =>
    have hq : ∀ (rows : List Node) (nid : Nat) (ds : List Node) (seen : List Nat),
        nid ∈ seen → getAllDescendants (f + 1) rows nid = some ds →
        parentsSeen seen ds = true := by
      intro rows nid ds seen hseen hds
      rw [getAllDescendants_succ] at hds
      exact ih.1 rows (getChildrenByParentId rows nid) ds seen
        (fun c hc => ⟨nid, mem_getChildrenByParentId hc, hseen⟩) hds
    refine ⟨?_, hq⟩
    intro rows cs
    induction cs with
    | nil =>
      intro ds seen _ hds
      rw [descendantsOfChildren_nil] at hds
      cases hds
      rfl
    | cons c cs' ihc =>
      intro ds seen hcs hds
      rw [descendantsOfChildren_cons] at hds
      rcases Option.bind_eq_some.mp hds with ⟨d1, hd1, hrest⟩
      rcases Option.bind_eq_some.mp hrest with ⟨rest, hrest2, hpure⟩
      cases hpure
      rcases hcs c (by simp) with ⟨p, hcp, hpseen⟩
      rw [parentsSeen, hcp, Bool.and_eq_true]
      refine ⟨List.elem_iff.mpr hpseen, ?_⟩
      rw [parentsSeen_append, Bool.and_eq_true]
      refine ⟨?_, ?_⟩
      · exact hq rows c.id d1 (seen ++ [c.id]) (by simp) hd1
      · refine ihc rest (seen ++ [c.id] ++ d1.map Node.id) ?_ hrest2
        intro c' hc'
        rcases hcs c' (List.mem_cons_of_mem c hc') with ⟨p', hcp', hp'⟩
        exact ⟨p', hcp', by
          rw [List.append_assoc]
          exact List.mem_append_left _ hp'⟩

/-- A finished descendant walk only lists rows of the store. -/
theorem getAllDescendants_subset :
    ∀ fuel, (∀ (rows cs ds : List Node),
        (∀ c ∈ cs, c ∈ rows) →
        descendantsOfChildren fuel rows cs = some ds → ∀ d ∈ ds, d ∈ rows) ∧
      (∀ (rows : List Node) (nid : Nat) (ds : List Node),
        getAllDescendants fuel rows nid = some ds → ∀ d ∈ ds, d ∈ rows) := by
  intro fuel
  induction fuel with
  | zero =>
    constructor
    · intro rows cs ds hcs hds
      cases cs with
      | nil =>
        rw [descendantsOfChildren_nil] at hds
        cases hds
        simp
      | cons c cs' =>
        rw [descendantsOfChildren_cons, getAllDescendants_zero] at hds
        simp at hds
    · intro rows nid ds hds
      rw [getAllDescendants_zero] at hds
      simp at hds
  | succ f ih =>
    have hmemch : ∀ (rows : List Node) (nid : Nat), ∀ c ∈ getChildrenByParentId rows nid,
        c ∈ rows := by
      intro rows nid c hc
      rw [getChildrenByParentId, sortRowsById] at hc
      exact List.mem_of_mem_filter
        ((List.Perm.mem_iff (List.perm_insertionSort _ _)).mp hc)
    have hq : ∀ (rows : List Node) (nid : Nat) (ds : List Node),
        getAllDescendants (f + 1) rows nid = some ds → ∀ d ∈ ds, d ∈ rows := by
      intro rows nid ds hds
      rw [getAllDescendants_succ] at hds
      exact ih.1 rows (getChildrenByParentId rows nid) ds (hmemch rows nid) hds
    refine ⟨?_, hq⟩
    intro rows cs
    induction cs with
    | nil =>
      intro ds hcs hds
      rw [descendantsOfChildren_nil] at hds
      cases hds
      simp
    | cons c cs' ihc =>
      intro ds hcs hds
      rw [descendantsOfChildren_cons] at hds
      rcases Option.bind_eq_some.mp hds with ⟨d1, hd1, hrest⟩
      rcases Option.bind_eq_some.mp hrest with ⟨rest, hrest2, hpure⟩
      cases hpure
      intro d hd
      rcases List.mem_cons.mp hd with hdc | hdm
      · exact hdc ▸ hcs c (by simp)
      · rcases List.mem_append.mp hdm with hd1m | hrm
        · exact hq rows c.id d1 hd1 d hd1m
        · exact ihc rest (fun x hx => hcs x (List.mem_cons_of_mem c hx)) hrest2 d hrm

theorem mapGet_map_replace_ne {k x : Nat} (hxk : x ≠ k) (v : Option Nat) :
    ∀ m : List (Nat × Option Nat),
      mapGet (m.map (fun e => if e.1 == k then (k, v) else e)) x = mapGet m x := by
  intro m
  induction m with
  | nil => rfl
  | cons e t ih =>
    rw [List.map_cons, mapGet, mapGet, List.find?_cons, List.find?_cons]
    by_cases hek : (e.1 == k) = true
    · rw [if_pos hek]
      have h1 : ((k, v).1 == x) = false := by
        simp only [beq_eq_false_iff_ne]
        omega
      have h2 : (e.1 == x) = false := by
        simp only [beq_eq_false_iff_ne]
        simp only [beq_iff_eq] at hek
        omega
      rw [h1, h2]
      exact ih
    · rw [if_neg hek]
      cases hex : (e.1 == x) with
      | true => rfl
      | false => exact ih

theorem mapGet_map_replace_self {k : Nat} (v : Option Nat) :
    ∀ m : List (Nat × Option Nat), m.any (fun e => e.1 == k) = true →
      mapGet (m.map (fun e => if e.1 == k then (k, v) else e)) k = some v := by
  intro m
  induction m with
  | nil => intro h; simp at h
  | cons e t ih =>
    intro h
    rw [List.map_cons, mapGet, List.find?_cons]
    by_cases hek : (e.1 == k) = true
    · rw [if_pos hek]
      rw [show ((k, v).1 == k) = true by simp]
      rfl
    · rw [if_neg hek]
      rw [show (e.1 == k) = false by simpa using hek]
      have ht : t.any (fun e => e.1 == k) = true := by
        rcases List.any_eq_true.mp h with ⟨a, ha, hak⟩
        rcases List.mem_cons.mp ha with rfl | ha'
        · exact absurd hak hek
        · exact List.any_eq_true.mpr ⟨a, ha', hak⟩
      exact ih ht

/-- Reading a key after a `Map.set`. -/
theorem mapGet_mapSet (m : List (Nat × Option Nat)) (k x : Nat) (v : Option Nat) :
    mapGet (mapSet m k v) x = if x = k then some v else mapGet m x := by
  rw [mapSet]
  by_cases hhas : m.any (fun e => e.1 == k) = true
  · rw [if_pos hhas]
    by_cases hxk : x = k
    · rw [if_pos hxk, hxk]
      exact mapGet_map_replace_self v m hhas
    · rw [if_neg hxk]
      exact mapGet_map_replace_ne hxk v m
  · rw [if_neg hhas]
    rw [mapGet, List.find?_append]
    by_cases hxk : x = k
    · subst hxk
      have hnone : m.find? (fun e => e.1 == x) = none := by
        rw [List.find?_eq_none]
        intro e he hex
        exact hhas (List.any_eq_true.mpr ⟨e, he, hex⟩)
      rw [hnone, if_pos rfl]
      simp [List.find?]
    · rw [if_neg hxk]
      rw [mapGet]
      cases hfind : m.find? (fun e => e.1 == x) with
      | some e => rfl
      | none =>
        have hkvx : (((k, v).1 == x)) = false := by
          simp only [beq_eq_false_iff_ne]
          omega
        simp [List.find?, hkvx]

/-- After processing a `parentsSeen` descendant list whose seen ids are all
mapped to `newParentId`, every descendant id is mapped to `newParentId`. -/
theorem buildParentIdMap_all (np : Option Nat) :
    ∀ (ds : List Node) (m : List (Nat × Option Nat)) (seen : List Nat),
      parentsSeen seen ds = true →
      (∀ x ∈ seen, mapGet m x = some np) →
      (∀ x ∈ seen ++ ds.map Node.id, mapGet (buildParentIdMap ds m) x = some np) := by
  intro ds
  induction ds with
  | nil =>
    intro m seen _ hm
    simpa [buildParentIdMap] using hm
  | cons d rest ih =>
    intro m seen hseen hm
    rw [parentsSeen] at hseen
    cases hp : d.parent_id with
    | none => rw [hp] at hseen; cases hseen
    | some p =>
      rw [hp, Bool.and_eq_true] at hseen
      rcases hseen with ⟨h1, h2⟩
      have hgp : mapGet m p = some np := hm p (List.elem_iff.mp h1)
      have hstep : buildParentIdMap (d :: rest) m = buildParentIdMap rest (mapSet m d.id np) := by
        rw [buildParentIdMap, buildParentIdMap, List.foldl_cons, hp]
        dsimp only
        rw [hgp]
      rw [hstep]
      have hm' : ∀ x ∈ seen ++ [d.id], mapGet (mapSet m d.id np) x = some np := by
        intro x hx
        rw [mapGet_mapSet]
        by_cases hxd : x = d.id
        · rw [if_pos hxd]
        · rw [if_neg hxd]
          rcases List.mem_append.mp hx with hx | hx
          · exact hm x hx
          · exact absurd (List.mem_singleton.mp hx) hxd
      intro x hx
      refine ih (mapSet m d.id np) (seen ++ [d.id]) h2 hm' x ?_
      rw [List.append_assoc]
      simpa using hx


theorem applyParentUpdate_eq_setParents (i : Nat) (np : Option Nat) (rows : List Node) :
    applyParentUpdate rows i np = setParents [i] np rows := by
  rw [applyParentUpdate, setParents]
  apply List.map_congr_left
  intro r _
  by_cases h : r.id = i
  · rw [if_pos (by simpa using h), if_pos (by simp [h])]
  · rw [if_neg (by simpa using h), if_neg (by simp [h, Ne.symm h])]

theorem setParents_applyParentUpdate (i : Nat) (ids : List Nat) (np : Option Nat)
    (rows : List Node) :
    setParents ids np (applyParentUpdate rows i np) = setParents (i :: ids) np rows := by
  rw [applyParentUpdate, setParents, setParents, List.map_map]
  apply List.map_congr_left
  intro r _
  by_cases hri : r.id = i
  · by_cases hrids : ids.contains r.id = true
    · simp [hri, hrids]
    · have : ids.contains i = false := by
        rw [← hri]
        simpa using hrids
      simp [hri, this]
  · have h1 : (r.id == i) = false := by simpa using hri
    by_cases hrids : ids.contains r.id = true
    · simp [h1, hrids, Function.comp, hri]
    · have h2 : ids.contains r.id = false := by simpa using hrids
      simp [h1, h2, hri, Ne.symm hri]

/-- The update loop of the move, given that the parent-id map sends every
listed id to `np`. -/
theorem foldl_update_eq_setParents (pmap : List (Nat × Option Nat)) (np : Option Nat) :
    ∀ (ds : List Node) (rows0 : List Node),
      (∀ d ∈ ds, mapGet pmap d.id = some np) →
      ds.foldl (fun rs d =>
        match mapGet pmap d.id with
        | some newPid => applyParentUpdate rs d.id newPid
        | none => rs) rows0 = setParents (ds.map Node.id) np rows0 := by
  intro ds
  induction ds with
  | nil =>
    intro rows0 _
    rw [List.foldl_nil, List.map_nil, setParents]
    have : ∀ r ∈ rows0, (if ([] : List Nat).contains r.id then
        { r with parent_id := np } else r) = r := by
      intro r _
      rfl
    rw [List.map_congr_left this]
    simp
  | cons d rest ih =>
    intro rows0 hg
    rw [List.foldl_cons, hg d (by simp)]
    rw [ih (applyParentUpdate rows0 d.id np) (fun x hx => hg x (List.mem_cons_of_mem d hx))]
    rw [setParents_applyParentUpdate]
    rfl

theorem find?_map_id_preserving (g : Node → Node) (hg : ∀ r, (g r).id = r.id)
    (x : Nat) : ∀ rows : List Node,
    (rows.map g).find? (fun r => r.id == x) = (rows.find? (fun r => r.id == x)).map g := by
  intro rows
  induction rows with
  | nil => rfl
  | cons r t ih =>
    rw [List.map_cons, List.find?_cons, List.find?_cons]
    cases hrx : (r.id == x) with
    | true =>
      rw [show ((g r).id == x) = true by rw [hg r]; exact hrx]
      rfl
    | false =>
      rw [show ((g r).id == x) = false by rw [hg r]; exact hrx]
      exact ih

theorem getNodeById_setParents (ids : List Nat) (np : Option Nat) (rows : List Node)
    (x : Nat) :
    getNodeById (setParents ids np rows) x =
      (getNodeById rows x).map
        (fun r => if ids.contains r.id then { r with parent_id := np } else r) := by
  rw [setParents, getNodeById, getNodeById]
  exact find?_map_id_preserving _ (fun r => by by_cases h : r.id ∈ ids <;> simp [h]) x rows

/-- Closed form of the write performed by `TreeQueries.moveNodeAndSubtree`:
the source row *and every descendant row* get `parent_id := newParentId`. -/
theorem queries_move_flatten (fuel : Nat) (rows : List Node) (src : Nat)
    (np : Option Nat) (ds rows' : List Node) (rnode : Option Node)
    (hds : getAllDescendants fuel rows src = some ds)
    (hq : TreeQueries.moveNodeAndSubtree fuel rows src np = some (.ok (rows', rnode))) :
    rows' = setParents (ds.map Node.id) np (setParents [src] np rows) := by
  rw [TreeQueries.moveNodeAndSubtree] at hq
  cases hfind : getNodeById rows src with
  | none =>
    rw [hfind] at hq
    exact absurd (Option.some.inj hq) (by simp)
  | some sn =>
    rw [hfind] at hq
    dsimp only at hq
    rw [hds, Option.map_some'] at hq
    have hpair := Except.ok.inj (Option.some.inj hq)
    have hrows2 := congrArg Prod.fst hpair
    dsimp only at hrows2
    have hseen : parentsSeen [src] ds = true :=
      (getAllDescendants_seen fuel).2 rows src ds [src] (by simp) hds
    have hm0 : ∀ x ∈ [src], mapGet [(src, np)] x = some np := by
      intro x hx
      rw [List.mem_singleton.mp hx]
      simp [mapGet, List.find?_cons]
    have hall := buildParentIdMap_all np ds [(src, np)] [src] hseen hm0
    have hgd : ∀ d ∈ ds, mapGet (buildParentIdMap ds [(src, np)]) d.id = some np := by
      intro d hd
      exact hall d.id (List.mem_append_right _ (List.mem_map.mpr ⟨d, hd, rfl⟩))
    rw [← hrows2,
      foldl_update_eq_setParents (buildParentIdMap ds [(src, np)]) np ds
        (applyParentUpdate rows src np) hgd,
      applyParentUpdate_eq_setParents]

/-- C1 amended: when an accepted move finishes (the descendant walk
converges and all four preconditions pass), the total row count is
unchanged and the moved node's `parent_id` becomes `newParentId`, but every
descendant's `parent_id` is *also* rewritten to `newParentId` — the subtree
is flattened directly under the new parent; rows outside the moved subtree
are untouched. -/
theorem c1_amended_flatten (fuel : Nat) (rows : List Node) (src : Nat)
    (np : Option Nat) (ds rows' : List Node) (rnode : Option Node)
    (hnodup : (rows.map Node.id).Nodup)
    (hds : getAllDescendants fuel rows src = some ds)
    (hmv : TreeService.moveNodeAndSubtree fuel rows src np = some (.ok (rows', rnode))) :
    rows'.length = rows.length ∧
    (∀ d ∈ ds, getNodeById rows' d.id = some { d with parent_id := np }) ∧
    (∀ r ∈ rows, r.id = src → getNodeById rows' r.id = some { r with parent_id := np }) ∧
    (∀ r ∈ rows, r.id ≠ src → r.id ∉ ds.map Node.id → getNodeById rows' r.id = some r) := by
  have hq : TreeQueries.moveNodeAndSubtree fuel rows src np = some (.ok (rows', rnode)) := by
    simp only [TreeService.moveNodeAndSubtree] at hmv
    by_cases h1 : (some src == np) = true
    · rw [if_pos h1] at hmv
      exact absurd (Option.some.inj hmv) (by simp)
    · rw [if_neg h1] at hmv
      cases np with
      | some npid =>
        dsimp only at hmv
        rcases Option.bind_eq_some.mp hmv with ⟨ds2, _, hbr⟩
        by_cases hcon : ((ds2.map Node.id).contains npid) = true
        · rw [if_pos hcon] at hbr
          exact absurd (Option.some.inj hbr) (by simp)
        · rw [if_neg hcon, moveTail] at hbr
          cases hfind : getNodeById rows src with
          | none =>
            rw [hfind] at hbr
            exact absurd (Option.some.inj hbr) (by simp)
          | some sn =>
            rw [hfind] at hbr
            dsimp only at hbr
            by_cases hnoop : (sn.parent_id == some npid) = true
            · rw [if_pos hnoop] at hbr
              exact absurd (Option.some.inj hbr) (by simp)
            · rw [if_neg hnoop] at hbr
              exact hbr
      | none =>
        dsimp only at hmv
        rw [moveTail] at hmv
        cases hfind : getNodeById rows src with
        | none =>
          rw [hfind] at hmv
          exact absurd (Option.some.inj hmv) (by simp)
        | some sn =>
          rw [hfind] at hmv
          dsimp only at hmv
          by_cases hnoop : (sn.parent_id == (none : Option Nat)) = true
          · rw [if_pos hnoop] at hmv
            exact absurd (Option.some.inj hmv) (by simp)
          · rw [if_neg hnoop] at hmv
            exact hmv
  have hrows' := queries_move_flatten fuel rows src np ds rows' rnode hds hq
  subst hrows'
  refine ⟨?_, ?_, ?_, ?_⟩
  · rw [setParents, setParents, List.length_map, List.length_map]
  · intro d hd
    have hdrow : d ∈ rows := (getAllDescendants_subset fuel).2 rows src ds hds d hd
    have hlook : getNodeById rows d.id = some d := getNodeById_of_mem_nodup hnodup hdrow
    rw [getNodeById_setParents, getNodeById_setParents, hlook]
    simp only [Option.map_some']
    have hdin : d.id ∈ ds.map Node.id := List.mem_map.mpr ⟨d, hd, rfl⟩
    by_cases h1 : (([src] : List Nat).contains d.id) = true
    · rw [if_pos h1]
      rw [if_pos (show ((ds.map Node.id).contains
          ({ d with parent_id := np } : Node).id) = true by simpa using hdin)]
    · rw [if_neg h1]
      rw [if_pos (show ((ds.map Node.id).contains d.id) = true by simpa using hdin)]
  · intro r hr hrid
    have hlook : getNodeById rows r.id = some r := getNodeById_of_mem_nodup hnodup hr
    rw [getNodeById_setParents, getNodeById_setParents, hlook]
    simp only [Option.map_some']
    rw [if_pos (show (([src] : List Nat).contains r.id) = true by simp [hrid])]
    by_cases h2 : ((ds.map Node.id).contains
        ({ r with parent_id := np } : Node).id) = true
    · rw [if_pos h2]
    · rw [if_neg h2]
  · intro r hr hne hnotds
    have hlook : getNodeById rows r.id = some r := getNodeById_of_mem_nodup hnodup hr
    rw [getNodeById_setParents, getNodeById_setParents, hlook]
    simp only [Option.map_some']
    rw [if_neg (show ¬(([src] : List Nat).contains r.id) = true by simp [hne])]
    rw [if_neg (show ¬((ds.map Node.id).contains r.id) = true by simpa using hnotds)]



/-- C1 counterexample: moving `bear` (id 2, with child `cat` id 3) under
`frog` (id 4) — the exact scenario of the claim — succeeds but rewrites
`cat`'s `parent_id` to 4 as well: `cat`'s parent is now `frog`, not `bear`,
and `frog` has two children (`bear` and `cat`), not one. -/
theorem c1_counterexample :
    TreeService.moveNodeAndSubtree 5 demoRows 2 (some 4) =
      some (.ok (demoMoved, some ⟨2, "bear", some 4⟩)) ∧
    getNodeById demoMoved 3 = some ⟨3, "cat", some 4⟩ ∧
    getChildrenByParentId demoMoved 4 =
      [⟨2, "bear", some 4⟩, ⟨3, "cat", some 4⟩] :=
  ⟨rfl, rfl, rfl⟩

/-- C1 witness: the amended flattening statement discharged on `demoRows`. -/
theorem c1_witness :
    ((demoRows.map Node.id).Nodup ∧
      getAllDescendants 5 demoRows 2 = some [⟨3, "cat", some 2⟩] ∧
      TreeService.moveNodeAndSubtree 5 demoRows 2 (some 4) =
        some (.ok (demoMoved, some ⟨2, "bear", some 4⟩))) ∧
    (demoMoved.length = demoRows.length ∧
      (∀ d ∈ [(⟨3, "cat", some 2⟩ : Node)],
        getNodeById demoMoved d.id = some { d with parent_id := some 4 }) ∧
      (∀ r ∈ demoRows, r.id = 2 →
        getNodeById demoMoved r.id = some { r with parent_id := some 4 }) ∧
      (∀ r ∈ demoRows, r.id ≠ 2 →
        r.id ∉ ([(⟨3, "cat", some 2⟩ : Node)].map Node.id) →
        getNodeById demoMoved r.id = some r)) :=
  ⟨⟨by decide, rfl, rfl⟩,
    c1_amended_flatten 5 demoRows 2 (some 4) [⟨3, "cat", some 2⟩] demoMoved
      (some ⟨2, "bear", some 4⟩) (by decide) rfl rfl⟩
